import Mathlib

set_option maxRecDepth 8192

/-!
Verification of the record-linkage core of the Voigts student data app.

Python strings are modelled as `List Char` with ASCII case semantics
(`Char.toLower` / `Char.toUpper` are the ASCII maps, matching Python's
behaviour on the ASCII names this system processes).  A missing value
(pandas `NaN`) is modelled as `none : Option (List Char)`.
-/

namespace VoigtsApp

/-- Python whitespace characters recognised by `str.strip`, `str.split` and
the regex class used in `re.sub(r"\s+", " ", s)` (space, tab, newline,
carriage return, vertical tab, form feed). -/
def isSpaceChar (c : Char) : Bool :=
  c == ' ' || c == '\t' || c == '\n' || c == '\r' || c == Char.ofNat 11 || c == Char.ofNat 12

/-- Drop the longest run of characters satisfying `p` from the end of a list
(the shape of Python's `str.rstrip`). -/
def dropTrailing (p : Char → Bool) (s : List Char) : List Char :=
  (s.reverse.dropWhile p).reverse

/-- Python `str.strip()` with no arguments: trim whitespace at both ends. -/
def pyStrip (s : List Char) : List Char :=
  dropTrailing isSpaceChar (s.dropWhile isSpaceChar)

/-- Python `re.sub(r"\s+", " ", s)`: replace every maximal whitespace run by
a single space. -/
def collapseWS : List Char → List Char
  | [] => []
  | c :: rest =>
    if isSpaceChar c then
      match rest with
      | [] => [' ']
      | d :: _ => if isSpaceChar d then collapseWS rest else ' ' :: collapseWS rest
    else c :: collapseWS rest

/-- Python `str.lower()` (ASCII). -/
def pyLower (s : List Char) : List Char := s.map Char.toLower

/-- Python `str.upper()` (ASCII). -/
def pyUpper (s : List Char) : List Char := s.map Char.toUpper

/-- Helper for `pyTitle`: the boolean records whether the previous character
was alphabetic. -/
def pyTitleAux : Bool → List Char → List Char
  | _, [] => []
  | prev, c :: rest =>
    if c.isAlpha then (if prev then c.toLower else c.toUpper) :: pyTitleAux true rest
    else c :: pyTitleAux false rest

/-- Python `str.title()` (ASCII): uppercase every letter that follows a
non-letter, lowercase every other letter. -/
def pyTitle (s : List Char) : List Char := pyTitleAux false s

/-- Helper for `pySplit`, accumulating the current token in reverse. -/
def pySplitAux : List Char → List Char → List (List Char)
  | [], acc => if acc = [] then [] else [acc.reverse]
  | c :: rest, acc =>
    if isSpaceChar c then
      if acc = [] then pySplitAux rest [] else acc.reverse :: pySplitAux rest []
    else pySplitAux rest (c :: acc)

/-- Python `str.split()` with no arguments: split on whitespace runs,
producing no empty tokens. -/
def pySplit (s : List Char) : List (List Char) := pySplitAux s []

/-- Python `word.rstrip('.,')`. -/
def rstripDotComma (s : List Char) : List Char :=
  dropTrailing (fun c => c == '.' || c == ',') s

/-- Python `' '.join(words)`. -/
def joinSpace : List (List Char) → List Char
  | [] => []
  | [w] => w
  | w :: rest => w ++ ' ' :: joinSpace rest

/-- The `prefixes` list of `StudentDataComparator.normalize_name`
(`['mr.', 'mrs.', 'ms.', 'dr.', 'prof.']`). -/
def honorifics : List (List Char) :=
  ["mr.".toList, "mrs.".toList, "ms.".toList, "dr.".toList, "prof.".toList]

/-- The `suffixes` list of `StudentDataComparator.normalize_name`
(`['jr.', 'sr.', 'ii', 'iii', 'iv']`). -/
def generational : List (List Char) :=
  ["jr.".toList, "sr.".toList, "ii".toList, "iii".toList, "iv".toList]

/-- The word list `name_str.lower().split()` computed inside
`normalize_name` (after strip, whitespace collapse and `str.title`). -/
def normalizeWords (name : List Char) : List (List Char) :=
  pySplit (pyLower (pyTitle (collapseWS (pyStrip name))))

/-- The `cleaned_words` list of `normalize_name`: for each word, remove
trailing `.`/`,`, drop it when the result is in the prefix/suffix lists,
otherwise keep `word_clean.title()`. -/
def cleanedNameWords (name : List Char) : List (List Char) :=
  (normalizeWords name).filterMap (fun w =>
    let wc := rstripDotComma w
    if wc ∈ honorifics ∨ wc ∈ generational then none else some (pyTitle wc))

/-- `StudentDataComparator.normalize_name` (student_data_comparator.py,
lines 284-308).  The `pd.isna(name) or not name` guard reduces, for string
inputs, to the empty-string test. -/
def normalize_name (name : List Char) : List Char :=
  if name = [] then [] else joinSpace (cleanedNameWords name)

/-! Character-level facts about the ASCII case maps. -/

theorem char_toNat_ofNat (n : Nat) (h : n.isValidChar) : (Char.ofNat n).toNat = n := by
  unfold Char.ofNat
  rw [dif_pos h]
  simp [Char.ofNatAux, Char.toNat, UInt32.toNat]

theorem toLower_toLower (c : Char) : c.toLower.toLower = c.toLower := by
  unfold Char.toLower
  by_cases h : c.toNat ≥ 65 ∧ c.toNat ≤ 90
  · rw [if_pos h]
    have hv : (c.toNat + 32).isValidChar := by
      left
      omega
    rw [char_toNat_ofNat _ hv]
    rw [if_neg (by omega)]
  · rw [if_neg h, if_neg h]

theorem toLower_toUpper (c : Char) : c.toUpper.toLower = c.toLower := by
  unfold Char.toLower Char.toUpper
  by_cases h : c.toNat ≥ 97 ∧ c.toNat ≤ 122
  · rw [if_pos h]
    have hv : (c.toNat - 32).isValidChar := by
      left
      omega
    rw [char_toNat_ofNat _ hv]
    rw [if_pos (by omega), if_neg (by omega)]
    have he : c.toNat - 32 + 32 = c.toNat := by omega
    rw [he, Char.ofNat_toNat]
  · rw [if_neg h]

theorem isSpaceChar_of_ge (c : Char) (h : 33 ≤ c.toNat) : isSpaceChar c = false := by
  have hne : ∀ d : Char, d.toNat < 33 → (c == d) = false := by
    intro d hd
    rw [beq_eq_false_iff_ne]
    intro he
    subst he
    omega
  simp only [isSpaceChar, hne ' ' (by decide), hne '\t' (by decide), hne '\n' (by decide),
    hne '\r' (by decide), hne (Char.ofNat 11) (by decide), hne (Char.ofNat 12) (by decide)]
  rfl

theorem isSpaceChar_toLower (c : Char) : isSpaceChar c.toLower = isSpaceChar c := by
  unfold Char.toLower
  by_cases h : c.toNat ≥ 65 ∧ c.toNat ≤ 90
  · rw [if_pos h]
    have hv : (c.toNat + 32).isValidChar := by
      left
      omega
    rw [isSpaceChar_of_ge _ (by rw [char_toNat_ofNat _ hv]; omega),
      isSpaceChar_of_ge _ (by omega)]
  · rw [if_neg h]

theorem isSpaceChar_toUpper (c : Char) : isSpaceChar c.toUpper = isSpaceChar c := by
  unfold Char.toUpper
  by_cases h : c.toNat ≥ 97 ∧ c.toNat ≤ 122
  · rw [if_pos h]
    have hv : (c.toNat - 32).isValidChar := by
      left
      omega
    rw [isSpaceChar_of_ge _ (by rw [char_toNat_ofNat _ hv]; omega),
      isSpaceChar_of_ge _ (by omega)]
  · rw [if_neg h]

/-! Facts about `pyTitle`, `pyLower`, `pySplit`, `collapseWS`, `pyStrip`. -/

theorem pyLower_pyTitleAux (b : Bool) (s : List Char) :
    pyLower (pyTitleAux b s) = pyLower s := by
  induction s generalizing b with
  | nil => rfl
  | cons c rest ih =>
    simp only [pyTitleAux]
    by_cases h : c.isAlpha
    · rw [if_pos h]
      have h2 := ih true
      simp only [pyLower] at h2
      cases b with
      | true => simp [pyLower, toLower_toLower, h2]
      | false => simp [pyLower, toLower_toUpper, h2]
    · rw [if_neg h]
      have h2 := ih false
      simp only [pyLower] at h2
      simp [pyLower, h2]

theorem pyLower_pyTitle (s : List Char) : pyLower (pyTitle s) = pyLower s :=
  pyLower_pyTitleAux false s

theorem length_pyTitleAux (b : Bool) (s : List Char) :
    (pyTitleAux b s).length = s.length := by
  induction s generalizing b with
  | nil => rfl
  | cons c rest ih =>
    simp only [pyTitleAux]
    by_cases h : c.isAlpha
    · rw [if_pos h]
      simp [ih true]
    · rw [if_neg h]
      simp [ih false]

theorem pyTitleAux_space_free (b : Bool) (s : List Char)
    (hs : ∀ c ∈ s, isSpaceChar c = false) :
    ∀ c ∈ pyTitleAux b s, isSpaceChar c = false := by
  induction s generalizing b with
  | nil => intro c hc; simp [pyTitleAux] at hc
  | cons c rest ih =>
    intro d hd
    simp only [pyTitleAux] at hd
    by_cases h : c.isAlpha
    · rw [if_pos h] at hd
      rcases List.mem_cons.mp hd with h1 | h1
      · subst h1
        by_cases hb : b
        · simp only [hb, if_pos]
          rw [isSpaceChar_toLower]
          exact hs c (List.mem_cons_self _ _)
        · simp only [hb, Bool.false_eq_true, if_false]
          rw [isSpaceChar_toUpper]
          exact hs c (List.mem_cons_self _ _)
      · exact ih true (fun e he => hs e (List.mem_cons_of_mem _ he)) d h1
    · rw [if_neg h] at hd
      rcases List.mem_cons.mp hd with h1 | h1
      · subst h1
        exact hs d (List.mem_cons_self _ _)
      · exact ih false (fun e he => hs e (List.mem_cons_of_mem _ he)) d h1

theorem pyLower_stable_chars (s : List Char) : ∀ c ∈ pyLower s, c.toLower = c := by
  intro c hc
  simp only [pyLower, List.mem_map] at hc
  obtain ⟨d, _, rfl⟩ := hc
  exact toLower_toLower d

theorem pyLower_id_of_stable (s : List Char) (h : ∀ c ∈ s, c.toLower = c) :
    pyLower s = s := by
  simp only [pyLower]
  exact List.map_congr_left h |>.trans (List.map_id s)

theorem joinSpace_cons_cons (w x : List Char) (t : List (List Char)) :
    joinSpace (w :: x :: t) = w ++ ' ' :: joinSpace (x :: t) := rfl

theorem joinSpace_head_shape (hw : Char) (w' : List Char) (t : List (List Char)) :
    ∃ tl, joinSpace ((hw :: w') :: t) = hw :: tl := by
  cases t with
  | nil => exact ⟨w', rfl⟩
  | cons x t' => exact ⟨w' ++ ' ' :: joinSpace (x :: t'), rfl⟩

theorem pyLower_joinSpace (ws : List (List Char)) :
    pyLower (joinSpace ws) = joinSpace (ws.map pyLower) := by
  induction ws with
  | nil => rfl
  | cons w t ih =>
    cases t with
    | nil => rfl
    | cons x t' =>
      rw [joinSpace_cons_cons]
      simp only [List.map_cons]
      rw [joinSpace_cons_cons]
      simp only [pyLower, List.map_append, List.map_cons] at ih ⊢
      rw [ih]
      norm_num
      decide

/-! Facts about `pySplit`. -/

theorem pySplitAux_ne_nil (s acc : List Char) :
    ∀ w ∈ pySplitAux s acc, w ≠ [] := by
  induction s generalizing acc with
  | nil =>
    intro w hw
    simp only [pySplitAux] at hw
    by_cases h : acc = []
    · simp [h] at hw
    · rw [if_neg h] at hw
      simp only [List.mem_singleton] at hw
      subst hw
      simpa using h
  | cons c rest ih =>
    intro w hw
    simp only [pySplitAux] at hw
    by_cases h : isSpaceChar c
    · rw [if_pos h] at hw
      by_cases h2 : acc = []
      · rw [if_pos h2] at hw
        exact ih [] w hw
      · rw [if_neg h2] at hw
        rcases List.mem_cons.mp hw with h3 | h3
        · subst h3
          simpa using h2
        · exact ih [] w h3
    · rw [if_neg h] at hw
      exact ih (c :: acc) w hw

theorem pySplitAux_space_free (s acc : List Char)
    (hacc : ∀ c ∈ acc, isSpaceChar c = false) :
    ∀ w ∈ pySplitAux s acc, ∀ c ∈ w, isSpaceChar c = false := by
  induction s generalizing acc with
  | nil =>
    intro w hw
    simp only [pySplitAux] at hw
    by_cases h : acc = []
    · simp [h] at hw
    · rw [if_neg h] at hw
      simp only [List.mem_singleton] at hw
      subst hw
      intro c hc
      exact hacc c (List.mem_reverse.mp hc)
  | cons c rest ih =>
    intro w hw
    simp only [pySplitAux] at hw
    by_cases h : isSpaceChar c
    · rw [if_pos h] at hw
      by_cases h2 : acc = []
      · rw [if_pos h2] at hw
        exact ih [] (by simp) w hw
      · rw [if_neg h2] at hw
        rcases List.mem_cons.mp hw with h3 | h3
        · subst h3
          intro d hd
          exact hacc d (List.mem_reverse.mp hd)
        · exact ih [] (by simp) w h3
    · rw [if_neg h] at hw
      refine ih (c :: acc) ?_ w hw
      intro d hd
      rcases List.mem_cons.mp hd with h3 | h3
      · subst h3
        simpa using h
      · exact hacc d h3

theorem pySplitAux_prop {q : Char → Prop} :
    ∀ s acc : List Char, (∀ c ∈ s, q c) → (∀ c ∈ acc, q c) →
    ∀ w ∈ pySplitAux s acc, ∀ c ∈ w, q c := by
  intro s
  induction s with
  | nil =>
    intro acc hs hacc w hw
    simp only [pySplitAux] at hw
    by_cases h : acc = []
    · simp [h] at hw
    · rw [if_neg h] at hw
      simp only [List.mem_singleton] at hw
      subst hw
      intro c hc
      exact hacc c (List.mem_reverse.mp hc)
  | cons c rest ih =>
    intro acc hs hacc w hw
    simp only [pySplitAux] at hw
    have hs' : ∀ d ∈ rest, q d := fun d hd => hs d (List.mem_cons_of_mem _ hd)
    by_cases h : isSpaceChar c
    · rw [if_pos h] at hw
      by_cases h2 : acc = []
      · rw [if_pos h2] at hw
        exact ih [] hs' (by simp) w hw
      · rw [if_neg h2] at hw
        rcases List.mem_cons.mp hw with h3 | h3
        · subst h3
          intro d hd
          exact hacc d (List.mem_reverse.mp hd)
        · exact ih [] hs' (by simp) w h3
    · rw [if_neg h] at hw
      refine ih (c :: acc) hs' ?_ w hw
      intro d hd
      rcases List.mem_cons.mp hd with h3 | h3
      · rw [h3]
        exact hs c (List.mem_cons_self _ _)
      · exact hacc d h3

theorem pySplitAux_append_word (w : List Char)
    (hw : ∀ c ∈ w, isSpaceChar c = false) :
    ∀ s acc, pySplitAux (w ++ s) acc = pySplitAux s (w.reverse ++ acc) := by
  induction w with
  | nil => intro s acc; rfl
  | cons c w' ih =>
    intro s acc
    have hc : isSpaceChar c = false := hw c (List.mem_cons_self _ _)
    have hw' : ∀ d ∈ w', isSpaceChar d = false := fun d hd => hw d (List.mem_cons_of_mem _ hd)
    simp only [List.cons_append, pySplitAux, hc, Bool.false_eq_true, if_false]
    show pySplitAux (w' ++ s) (c :: acc) = pySplitAux s ((c :: w').reverse ++ acc)
    rw [ih hw' s (c :: acc)]
    simp

theorem pySplit_joinSpace (ws : List (List Char))
    (h1 : ∀ w ∈ ws, w ≠ [])
    (h2 : ∀ w ∈ ws, ∀ c ∈ w, isSpaceChar c = false) :
    pySplit (joinSpace ws) = ws := by
  induction ws with
  | nil => rfl
  | cons w t ih =>
    have hw1 : w ≠ [] := h1 w (List.mem_cons_self _ _)
    have hw2 : ∀ c ∈ w, isSpaceChar c = false := h2 w (List.mem_cons_self _ _)
    cases t with
    | nil =>
      show pySplitAux w [] = [w]
      have := pySplitAux_append_word w hw2 [] []
      simp only [List.append_nil] at this
      rw [this]
      simp only [pySplitAux]
      rw [if_neg (by simpa using hw1)]
      simp
    | cons x t' =>
      rw [joinSpace_cons_cons]
      show pySplitAux (w ++ ' ' :: joinSpace (x :: t')) [] = w :: x :: t'
      rw [pySplitAux_append_word w hw2 _ []]
      simp only [List.append_nil, pySplitAux]
      rw [if_pos (by decide), if_neg (by simpa using hw1)]
      rw [List.reverse_reverse]
      have ih' := ih (fun u hu => h1 u (List.mem_cons_of_mem _ hu))
        (fun u hu => h2 u (List.mem_cons_of_mem _ hu))
      exact congrArg (w :: ·) ih'

/-! Facts about `collapseWS`. -/

theorem collapseWS_append_word (w t : List Char)
    (hw : ∀ c ∈ w, isSpaceChar c = false) :
    collapseWS (w ++ t) = w ++ collapseWS t := by
  induction w with
  | nil => rfl
  | cons c w' ih =>
    have hc : isSpaceChar c = false := hw c (List.mem_cons_self _ _)
    simp only [List.cons_append, collapseWS, hc, Bool.false_eq_true, if_false]
    show c :: collapseWS (w' ++ t) = c :: (w' ++ collapseWS t)
    rw [ih (fun d hd => hw d (List.mem_cons_of_mem _ hd))]

theorem collapseWS_space_cons (d : Char) (x : List Char) (hd : isSpaceChar d = false) :
    collapseWS (' ' :: d :: x) = ' ' :: collapseWS (d :: x) := by
  show (if isSpaceChar ' ' then
      if isSpaceChar d then collapseWS (d :: x) else ' ' :: collapseWS (d :: x)
    else ' ' :: collapseWS (d :: x)) = ' ' :: collapseWS (d :: x)
  rw [if_pos (by decide), if_neg (by simp [hd])]

theorem collapseWS_joinSpace (ws : List (List Char))
    (h1 : ∀ w ∈ ws, w ≠ [])
    (h2 : ∀ w ∈ ws, ∀ c ∈ w, isSpaceChar c = false) :
    collapseWS (joinSpace ws) = joinSpace ws := by
  induction ws with
  | nil => rfl
  | cons w t ih =>
    have hw1 : w ≠ [] := h1 w (List.mem_cons_self _ _)
    have hw2 : ∀ c ∈ w, isSpaceChar c = false := h2 w (List.mem_cons_self _ _)
    cases t with
    | nil =>
      show collapseWS w = w
      have h := collapseWS_append_word w [] hw2
      simpa [collapseWS] using h
    | cons x t' =>
      rw [joinSpace_cons_cons]
      rw [collapseWS_append_word w _ hw2]
      have hx1 : x ≠ [] := h1 x (List.mem_cons_of_mem _ (List.mem_cons_self _ _))
      obtain ⟨hx, x', rfl⟩ : ∃ hx x', x = hx :: x' := by
        cases x with
        | nil => simp at hx1
        | cons a b => exact ⟨a, b, rfl⟩
      obtain ⟨tl, htl⟩ := joinSpace_head_shape hx x' t'
      have hhx : isSpaceChar hx = false :=
        h2 (hx :: x') (List.mem_cons_of_mem _ (List.mem_cons_self _ _)) hx (List.mem_cons_self _ _)
      have ih' := ih (fun u hu => h1 u (List.mem_cons_of_mem _ hu))
        (fun u hu => h2 u (List.mem_cons_of_mem _ hu))
      rw [htl, collapseWS_space_cons hx tl hhx, ← htl, ih']

/-! Facts about `pyStrip` and `dropTrailing`. -/

theorem dropWhile_cons_neg {p : Char → Bool} {c : Char} {t : List Char}
    (h : p c = false) : List.dropWhile p (c :: t) = c :: t := by
  simp [List.dropWhile_cons, h]

theorem dropWhile_self {p : Char → Bool} (l : List Char) :
    List.dropWhile p (List.dropWhile p l) = List.dropWhile p l := by
  induction l with
  | nil => rfl
  | cons c t ih =>
    by_cases h : p c
    · simp [List.dropWhile_cons, h, ih]
    · simp [List.dropWhile_cons, h]

theorem dropTrailing_dropTrailing (p : Char → Bool) (l : List Char) :
    dropTrailing p (dropTrailing p l) = dropTrailing p l := by
  simp only [dropTrailing, List.reverse_reverse]
  rw [dropWhile_self]

theorem mem_dropTrailing {p : Char → Bool} {c : Char} {l : List Char}
    (h : c ∈ dropTrailing p l) : c ∈ l := by
  simp only [dropTrailing, List.mem_reverse] at h
  exact List.mem_reverse.mp ((List.dropWhile_sublist _).subset h)

theorem joinSpace_reverse_head (ws : List (List Char))
    (h1 : ∀ w ∈ ws, w ≠ [])
    (h2 : ∀ w ∈ ws, ∀ c ∈ w, isSpaceChar c = false) (hne : ws ≠ []) :
    ∃ h t, (joinSpace ws).reverse = h :: t ∧ isSpaceChar h = false := by
  induction ws with
  | nil => simp at hne
  | cons w t ih =>
    cases t with
    | nil =>
      have hw1 : w ≠ [] := h1 w (List.mem_cons_self _ _)
      have : w.reverse ≠ [] := by simpa using hw1
      obtain ⟨h, tl, hh⟩ := List.exists_cons_of_ne_nil this
      refine ⟨h, tl, hh, ?_⟩
      have : h ∈ w := by
        rw [← List.mem_reverse, hh]
        exact List.mem_cons_self _ _
      exact h2 w (List.mem_cons_self _ _) h this
    | cons x t' =>
      obtain ⟨h, tl, hh, hsp⟩ := ih (fun u hu => h1 u (List.mem_cons_of_mem _ hu))
        (fun u hu => h2 u (List.mem_cons_of_mem _ hu)) (by simp)
      refine ⟨h, tl ++ ' ' :: w.reverse, ?_, hsp⟩
      rw [joinSpace_cons_cons]
      rw [List.reverse_append, List.reverse_cons, hh]
      simp

theorem pyStrip_joinSpace (ws : List (List Char))
    (h1 : ∀ w ∈ ws, w ≠ [])
    (h2 : ∀ w ∈ ws, ∀ c ∈ w, isSpaceChar c = false) :
    pyStrip (joinSpace ws) = joinSpace ws := by
  cases ws with
  | nil => rfl
  | cons w t =>
    have hw1 : w ≠ [] := h1 w (List.mem_cons_self _ _)
    obtain ⟨hw, w', rfl⟩ : ∃ hw w', w = hw :: w' := by
      cases w with
      | nil => simp at hw1
      | cons a b => exact ⟨a, b, rfl⟩
    obtain ⟨tl, htl⟩ := joinSpace_head_shape hw w' t
    have hhw : isSpaceChar hw = false :=
      h2 (hw :: w') (List.mem_cons_self _ _) hw (List.mem_cons_self _ _)
    unfold pyStrip
    rw [htl, dropWhile_cons_neg hhw, ← htl]
    obtain ⟨h, tl2, hh, hsp⟩ := joinSpace_reverse_head ((hw :: w') :: t) h1 h2 (by simp)
    unfold dropTrailing
    rw [hh, dropWhile_cons_neg hsp, ← hh, List.reverse_reverse]

/-! The words of `normalize_name` that survive the prefix/suffix filter. -/

/-- The surviving cleaned words, before re-titling. -/
def keptWords (name : List Char) : List (List Char) :=
  (normalizeWords name).filterMap (fun w =>
    let wc := rstripDotComma w
    if wc ∈ honorifics ∨ wc ∈ generational then none else some wc)

theorem filterMap_eq_map_of_some {α β : Type} (l : List α) (f : α → Option β) (g : α → β)
    (h : ∀ a ∈ l, f a = some (g a)) : l.filterMap f = l.map g := by
  induction l with
  | nil => rfl
  | cons a t ih =>
    rw [List.filterMap_cons, h a (List.mem_cons_self _ _), List.map_cons,
      ih (fun b hb => h b (List.mem_cons_of_mem _ hb))]

theorem cleanedNameWords_eq_map (name : List Char) :
    cleanedNameWords name = (keptWords name).map pyTitle := by
  unfold cleanedNameWords keptWords
  rw [List.map_filterMap]
  congr 1
  funext w
  by_cases h : rstripDotComma w ∈ honorifics ∨ rstripDotComma w ∈ generational
  · simp [h]
  · simp [h]

theorem keptWords_spec (name : List Char) (w : List Char) (hw : w ∈ keptWords name) :
    ∃ w0 ∈ normalizeWords name, w = rstripDotComma w0 ∧
      ¬(w ∈ honorifics ∨ w ∈ generational) := by
  unfold keptWords at hw
  rw [List.mem_filterMap] at hw
  obtain ⟨w0, h0, hsome⟩ := hw
  by_cases hP : rstripDotComma w0 ∈ honorifics ∨ rstripDotComma w0 ∈ generational
  · simp [hP] at hsome
  · simp only [hP, if_false, Option.some.injEq] at hsome
    refine ⟨w0, h0, hsome.symm, ?_⟩
    rw [← hsome]
    exact hP

theorem normalizeWords_space_free (name : List Char) :
    ∀ w ∈ normalizeWords name, ∀ c ∈ w, isSpaceChar c = false := by
  intro w hw
  exact pySplitAux_space_free _ [] (by simp) w hw

theorem normalizeWords_stable (name : List Char) :
    ∀ w ∈ normalizeWords name, ∀ c ∈ w, c.toLower = c := by
  intro w hw
  exact pySplitAux_prop _ [] (pyLower_stable_chars _) (by simp) w hw

theorem keptWords_space_free (name : List Char) :
    ∀ w ∈ keptWords name, ∀ c ∈ w, isSpaceChar c = false := by
  intro w hw c hc
  obtain ⟨w0, h0, rfl, -⟩ := keptWords_spec name w hw
  exact normalizeWords_space_free name w0 h0 c (mem_dropTrailing hc)

theorem keptWords_stable (name : List Char) :
    ∀ w ∈ keptWords name, ∀ c ∈ w, c.toLower = c := by
  intro w hw c hc
  obtain ⟨w0, h0, rfl, -⟩ := keptWords_spec name w hw
  exact normalizeWords_stable name w0 h0 c (mem_dropTrailing hc)

theorem keptWords_rstrip (name : List Char) :
    ∀ w ∈ keptWords name, rstripDotComma w = w := by
  intro w hw
  obtain ⟨w0, h0, rfl, -⟩ := keptWords_spec name w hw
  exact dropTrailing_dropTrailing _ w0

theorem keptWords_not_dropped (name : List Char) :
    ∀ w ∈ keptWords name, ¬(w ∈ honorifics ∨ w ∈ generational) := by
  intro w hw
  obtain ⟨w0, h0, rfl, h⟩ := keptWords_spec name w hw
  exact h

theorem keptWords_ne_nil (name : List Char)
    (hx : ∀ w ∈ normalizeWords name, rstripDotComma w ≠ []) :
    ∀ w ∈ keptWords name, w ≠ [] := by
  intro w hw
  obtain ⟨w0, h0, rfl, -⟩ := keptWords_spec name w hw
  exact hx w0 h0

/-- C5 (amended): name normalization is idempotent for every input string
in which no whitespace-delimited token consists entirely of periods and
commas (i.e. no token of `normalizeWords` is rstripped to the empty word):
for all such `x`, `normalize_name (normalize_name x) = normalize_name x`.
Unrestricted idempotence fails (see `normalize_name_not_idempotent`):
a token that is all periods/commas becomes an empty cleaned word, and the
space-joining then leaves a double space that only a second pass collapses. -/
theorem normalize_name_idem (x : List Char)
    (hx : ∀ w ∈ normalizeWords x, rstripDotComma w ≠ []) :
    normalize_name (normalize_name x) = normalize_name x := by
  by_cases h0 : x = []
  · subst h0
    simp [normalize_name]
  · have hy : normalize_name x = joinSpace (cleanedNameWords x) := by
      rw [normalize_name, if_neg h0]
    have hcw : cleanedNameWords x = (keptWords x).map pyTitle := cleanedNameWords_eq_map x
    have hKne : ∀ w ∈ keptWords x, w ≠ [] := keptWords_ne_nil x hx
    have hKsf : ∀ w ∈ keptWords x, ∀ c ∈ w, isSpaceChar c = false := keptWords_space_free x
    have hKst : ∀ w ∈ keptWords x, ∀ c ∈ w, c.toLower = c := keptWords_stable x
    have hCne : ∀ u ∈ (keptWords x).map pyTitle, u ≠ [] := by
      intro u hu
      rw [List.mem_map] at hu
      obtain ⟨w, hw, rfl⟩ := hu
      intro hnil
      apply hKne w hw
      have hlen := length_pyTitleAux false w
      rw [show pyTitleAux false w = pyTitle w from rfl, hnil] at hlen
      exact List.eq_nil_of_length_eq_zero hlen.symm
    have hCsf : ∀ u ∈ (keptWords x).map pyTitle, ∀ c ∈ u, isSpaceChar c = false := by
      intro u hu
      rw [List.mem_map] at hu
      obtain ⟨w, hw, rfl⟩ := hu
      exact pyTitleAux_space_free false w (hKsf w hw)
    by_cases hK : (keptWords x).map pyTitle = []
    · rw [hy, hcw, hK]
      simp [normalize_name, joinSpace]
    · have hyne : joinSpace ((keptWords x).map pyTitle) ≠ [] := by
        obtain ⟨u, rest, hur⟩ := List.exists_cons_of_ne_nil hK
        have hu1 : u ≠ [] := hCne u (by rw [hur]; exact List.mem_cons_self _ _)
        obtain ⟨hu, u', rfl⟩ : ∃ hu u', u = hu :: u' := by
          cases u with
          | nil => simp at hu1
          | cons a b => exact ⟨a, b, rfl⟩
        obtain ⟨tl, htl⟩ := joinSpace_head_shape hu u' rest
        rw [hur, htl]
        simp
      rw [hy, hcw]
      rw [normalize_name, if_neg hyne]
      suffices hsuff : cleanedNameWords (joinSpace ((keptWords x).map pyTitle))
          = (keptWords x).map pyTitle by rw [hsuff]
      have hnw : normalizeWords (joinSpace ((keptWords x).map pyTitle)) = keptWords x := by
        unfold normalizeWords
        rw [pyStrip_joinSpace _ hCne hCsf, collapseWS_joinSpace _ hCne hCsf]
        rw [pyLower_pyTitle, pyLower_joinSpace]
        have h1 : ∀ w ∈ keptWords x, (pyLower ∘ pyTitle) w = w := by
          intro w hw
          show pyLower (pyTitle w) = w
          rw [pyLower_pyTitle]
          exact pyLower_id_of_stable w (hKst w hw)
        have hmap : ((keptWords x).map pyTitle).map pyLower = keptWords x := by
          rw [List.map_map]
          rw [List.map_congr_left h1]
          exact List.map_id _
        rw [hmap]
        exact pySplit_joinSpace _ hKne hKsf
      unfold cleanedNameWords
      rw [hnw]
      apply filterMap_eq_map_of_some
      intro w hw
      have hr : rstripDotComma w = w := keptWords_rstrip x w hw
      have hnd := keptWords_not_dropped x w hw
      simp only [hr]
      rw [if_neg hnd]

/-- C5 (counterexample): the claim "normalize(normalize(x)) equals
normalize(x) for every input string x" is false on the code: for
`x = "John . Smith"` the first pass drops the token `"."` to an empty
cleaned word, producing `"John  Smith"` (double space), and the second
pass collapses it to `"John Smith"`. -/
theorem normalize_name_not_idempotent :
    normalize_name (normalize_name "John . Smith".toList) ≠
      normalize_name "John . Smith".toList := by
  decide

/-- Witness for C5's amended theorem at the concrete input `"John Smith"`. -/
theorem normalize_name_idem_witness :
    (∀ w ∈ normalizeWords "John Smith".toList, rstripDotComma w ≠ []) ∧
      normalize_name (normalize_name "John Smith".toList) =
        normalize_name "John Smith".toList :=
  ⟨by decide, normalize_name_idem ("John Smith".toList) (by decide)⟩

/-- C4: the claim that `normalize_name` strips the honorific prefixes
`mr., mrs., ms., dr., prof.` and the dotted suffixes `jr., sr.` as whole
tokens is false on the code: each word is `rstrip`ped of `.`/`,` BEFORE
being compared against the lists, whose entries keep their trailing dot,
so the dotted entries can never match; only the undotted suffixes
`ii`/`iii`/`iv` are actually stripped.  `"Mr. John Smith"` normalizes to
`"Mr John Smith"` (honorific kept, dot removed) instead of the documented
`"John Smith"`, while `"John Smith II"` does lose its suffix. -/
theorem normalize_name_honorifics_kept :
    normalize_name "Mr. John Smith".toList = "Mr John Smith".toList ∧
      normalize_name "Mrs. Jane Doe".toList = "Mrs Jane Doe".toList ∧
      normalize_name "Dr. Jane Doe".toList = "Dr Jane Doe".toList ∧
      normalize_name "John Smith Jr.".toList = "John Smith Jr".toList ∧
      normalize_name "John Smith Sr.".toList = "John Smith Sr".toList ∧
      normalize_name "John Smith II".toList = "John Smith".toList ∧
      normalize_name "John Smith IV".toList = "John Smith".toList := by
  decide

/-! The fuzzy matcher (student_data_comparator.py, lines 335-365). -/

/-- The four fuzzywuzzy scorers used by `fuzzy_match_names`
(`fuzz.ratio`, `fuzz.token_sort_ratio`, `fuzz.token_set_ratio` and the
substring-containment scorer), modelled as an abstract external-library
interface: each scorer maps two (already normalized) strings to an
integer score.  The claims about the matcher hold for every such
library. -/
structure FuzzLib where
  fuzz_ratio : List Char → List Char → Nat
  fuzz_token_sort : List Char → List Char → Nat
  fuzz_token_set : List Char → List Char → Nat
  fuzz_part : List Char → List Char → Nat

/-- `StudentDataComparator.fuzzy_match_names` (student_data_comparator.py,
lines 335-365): normalize both names, return `(False, 0)` when either is
empty before or after normalization, otherwise score with the four
strategies and take the best.  Python's `max(scores)` over the nonempty
list of nonnegative scores equals the fold below. -/
def fuzzy_best (lib : FuzzLib) (n1 n2 : List Char) : Nat :=
  [lib.fuzz_ratio n1 n2, lib.fuzz_token_sort n1 n2,
    lib.fuzz_token_set n1 n2, lib.fuzz_part n1 n2].foldl max 0

def fuzzy_match_names (lib : FuzzLib) (name1 name2 : List Char) (threshold : Nat) :
    Bool × Nat :=
  if name1 = [] ∨ name2 = [] then (false, 0)
  else if normalize_name name1 = [] ∨ normalize_name name2 = [] then (false, 0)
  else (decide (threshold ≤ fuzzy_best lib (normalize_name name1) (normalize_name name2)),
    fuzzy_best lib (normalize_name name1) (normalize_name name2))

/-- C6: fuzzy matching is monotone in the threshold: for every scorer
library, all names `a b` and thresholds `t' ≤ t`, a match at `t` is a
match at `t'`; the returned score does not depend on the threshold; and
for every positive threshold (in particular throughout the app's 50-100
range) `is_match` holds exactly when `score ≥ threshold`.  (At the
degenerate threshold 0 an empty-normalizing name returns
`(False, 0)` while `0 ≤ 0` holds, which is why the equivalence is stated
for `1 ≤ t`.) -/
theorem fuzzy_match_monotone (lib : FuzzLib) (a b : List Char) (t t' : Nat)
    (hle : t' ≤ t) :
    ((fuzzy_match_names lib a b t).1 = true → (fuzzy_match_names lib a b t').1 = true) ∧
    (fuzzy_match_names lib a b t).2 = (fuzzy_match_names lib a b t').2 ∧
    (1 ≤ t → ((fuzzy_match_names lib a b t).1 = true ↔
      t ≤ (fuzzy_match_names lib a b t).2)) := by
  unfold fuzzy_match_names
  by_cases h1 : a = [] ∨ b = []
  · rw [if_pos h1, if_pos h1]
    refine ⟨fun h => h, rfl, fun ht => ?_⟩
    constructor
    · intro h
      exact absurd h (by simp)
    · intro h
      simp only at h
      omega
  · rw [if_neg h1, if_neg h1]
    by_cases h2 : normalize_name a = [] ∨ normalize_name b = []
    · rw [if_pos h2, if_pos h2]
      refine ⟨fun h => h, rfl, fun ht => ?_⟩
      constructor
      · intro h
        exact absurd h (by simp)
      · intro h
        simp only at h
        omega
    · rw [if_neg h2, if_neg h2]
      refine ⟨?_, rfl, fun ht => ?_⟩
      · simp only [decide_eq_true_eq]
        intro h
        omega
      · simp only [decide_eq_true_eq]

/-- A constant scorer library, used for concrete witnesses. -/
def constLib (n : Nat) : FuzzLib :=
  ⟨fun _ _ => n, fun _ _ => n, fun _ _ => n, fun _ _ => n⟩

/-- Witness for C6 at a concrete library, names and thresholds. -/
theorem fuzzy_match_monotone_witness :
    (50 ≤ 80 ∧ 1 ≤ 80) ∧
      ((fuzzy_match_names (constLib 90) "Al Pacino".toList "Bob Jones".toList 80).1 = true →
        (fuzzy_match_names (constLib 90) "Al Pacino".toList "Bob Jones".toList 50).1 = true) ∧
      ((fuzzy_match_names (constLib 90) "Al Pacino".toList "Bob Jones".toList 80).1 = true ↔
        80 ≤ (fuzzy_match_names (constLib 90) "Al Pacino".toList "Bob Jones".toList 80).2) :=
  ⟨⟨by decide, by decide⟩,
   (fuzzy_match_monotone (constLib 90) _ _ 80 50 (by decide)).1,
   (fuzzy_match_monotone (constLib 90) _ _ 80 50 (by decide)).2.2 (by decide)⟩

/-- Helper used by the greedy-selection proofs: for positive thresholds,
`is_match` is exactly `threshold ≤ score`. -/
theorem fuzzy_isMatch_iff (lib : FuzzLib) (a b : List Char) (t : Nat) (ht : 1 ≤ t) :
    ((fuzzy_match_names lib a b t).1 = true ↔ t ≤ (fuzzy_match_names lib a b t).2) := by
  unfold fuzzy_match_names
  by_cases h1 : a = [] ∨ b = []
  · rw [if_pos h1]
    constructor
    · intro h
      exact absurd h (by simp)
    · intro h
      simp only at h
      omega
  · rw [if_neg h1]
    by_cases h2 : normalize_name a = [] ∨ normalize_name b = []
    · rw [if_pos h2]
      constructor
      · intro h
        exact absurd h (by simp)
      · intro h
        simp only at h
        omega
    · rw [if_neg h2]
      simp only [decide_eq_true_eq]

/-! The record linker: `StudentDataComparator.compare_data`
(student_data_comparator.py, lines 367-512), with the name columns already
resolved, so each roster row is given as the list of its name-column cell
values. -/

/-- A pandas cell: `none` models NaN/missing. -/
abbrev Cell := Option (List Char)

/-- Python `str(cell)`: a missing value prints as `"nan"`. -/
def pyStr (c : Cell) : List Char :=
  match c with
  | none => "nan".toList
  | some s => s

/-- Python `str.isdigit()` (ASCII digits): nonempty and all digits. -/
def pyIsDigit (s : List Char) : Bool :=
  !s.isEmpty && s.all Char.isDigit

/-- `StudentDataComparator._create_combined_name` (lines 310-333), applied
to the name-column values of one row, in column order: skip missing or
blank cells and placeholder values (`nan`/`none`/digit strings), normalize
each remaining value, keep it when longer than one character, join with
spaces, collapse whitespace and strip. -/
def _create_combined_name (row : List Cell) : List Char :=
  let combined_parts := row.filterMap (fun cell =>
    match cell with
    | none => none
    | some v =>
      if pyStrip v = [] then none
      else
        let col_value := pyStrip v
        if pyLower col_value ∈ ["nan".toList, "none".toList, ([] : List Char)] ∨
            pyIsDigit (col_value.filter (fun c => !(c == '.'))) then none
        else
          let cleaned_value := normalize_name col_value
          if cleaned_value ≠ [] ∧ 1 < cleaned_value.length then some cleaned_value
          else none)
  pyStrip (collapseWS (joinSpace combined_parts))

/-- One identity-bearing row: its original row index and its combined,
stripped name (the dictionaries built at lines 418-436). -/
structure Candidate where
  index : Nat
  name : List Char
deriving DecidableEq

/-- Build the candidate list of a roster (lines 418-436): keep
`(idx, combined_name.strip())` for every row whose combined name is
nonempty after stripping. -/
def buildCandidates (rows : List (List Cell)) : List Candidate :=
  rows.enum.filterMap (fun p =>
    if pyStrip (_create_combined_name p.2) = [] then none
    else some ⟨p.1, pyStrip (_create_combined_name p.2)⟩)

/-- The inner loop of `compare_data` (lines 454-466): scan the comparison
candidates, skip the already-matched ones, and keep the first candidate
attaining the strictly highest matching score (`is_match and
score > best_score`, starting from `best_score = 0`). -/
def findBestMatch (lib : FuzzLib) (t : Nat) (matched : List Nat) (aiName : List Char) :
    List Candidate → Option Candidate → Nat → Option Candidate × Nat
  | [], best, bestScore => (best, bestScore)
  | comp :: rest, best, bestScore =>
    if comp.index ∈ matched then findBestMatch lib t matched aiName rest best bestScore
    else
      if (fuzzy_match_names lib aiName comp.name t).1 = true ∧
          bestScore < (fuzzy_match_names lib aiName comp.name t).2 then
        findBestMatch lib t matched aiName rest (some comp)
          (fuzzy_match_names lib aiName comp.name t).2
      else findBestMatch lib t matched aiName rest best bestScore

/-- One match triple (lines 469-477). -/
structure MatchEntry where
  ai_index : Nat
  comparison_index : Nat
  ai_name : List Char
  comparison_name : List Char
  match_score : Nat
deriving DecidableEq

/-- The mutable state of the matching loop: `self.matches`,
`self.unmatched_ai` and `matched_comparison_indices` (the set is modelled
as a list used only through membership). -/
structure CompareState where
  matches' : List MatchEntry
  unmatched_ai : List Candidate
  matched_comparison_indices : List Nat
deriving DecidableEq

/-- The outer loop of `compare_data` (lines 454-484): process source
candidates in order; on a best match, record the triple and consume the
target index; otherwise record the source as unmatched. -/
def compareLoop (lib : FuzzLib) (t : Nat) (comparison_names : List Candidate) :
    List Candidate → CompareState → CompareState
  | [], st => st
  | ai :: rest, st =>
    match findBestMatch lib t st.matched_comparison_indices ai.name comparison_names none 0 with
    | (some best, bestScore) =>
      compareLoop lib t comparison_names rest
        { matches' := st.matches' ++ [⟨ai.index, best.index, ai.name, best.name, bestScore⟩]
          unmatched_ai := st.unmatched_ai
          matched_comparison_indices := st.matched_comparison_indices ++ [best.index] }
    | (none, _) =>
      compareLoop lib t comparison_names rest
        { matches' := st.matches'
          unmatched_ai := st.unmatched_ai ++ [ai]
          matched_comparison_indices := st.matched_comparison_indices }

/-- The result of `compare_data`: the match triples and the two residual
sets (lines 486-493). -/
structure CompareResult where
  matches' : List MatchEntry
  unmatched_ai : List Candidate
  unmatched_comparison : List Candidate
deriving DecidableEq

/-- `StudentDataComparator.compare_data` (lines 413-502), given the two
rosters already restricted to their name columns. -/
def compare_data (lib : FuzzLib) (aiRows compRows : List (List Cell)) (t : Nat) :
    CompareResult :=
  { matches' := (compareLoop lib t (buildCandidates compRows) (buildCandidates aiRows)
      ⟨[], [], []⟩).matches'
    unmatched_ai := (compareLoop lib t (buildCandidates compRows) (buildCandidates aiRows)
      ⟨[], [], []⟩).unmatched_ai
    unmatched_comparison := (buildCandidates compRows).filter
      (fun comp => decide (comp.index ∉ (compareLoop lib t (buildCandidates compRows)
        (buildCandidates aiRows) ⟨[], [], []⟩).matched_comparison_indices)) }

/-- Full characterization of the inner greedy scan, generalized over the
running best candidate and score: when a candidate is returned it is
either the initial accumulator, or a not-yet-consumed candidate that is a
match, whose score strictly beats the initial score, and that is the
first candidate attaining the maximal qualifying score; in every case no
not-yet-consumed matching candidate scores above the returned score. -/
theorem findBestMatch_spec (lib : FuzzLib) (t : Nat) (matched : List Nat) (aiName : List Char) :
    ∀ comps : List Candidate, ∀ best0 : Option Candidate, ∀ bs0 : Nat, ∀ c : Candidate, ∀ s : Nat,
      findBestMatch lib t matched aiName comps best0 bs0 = (some c, s) →
      ((best0 = some c ∧ s = bs0) ∨
        (c.index ∉ matched ∧
          (fuzzy_match_names lib aiName c.name t).1 = true ∧
          (fuzzy_match_names lib aiName c.name t).2 = s ∧ bs0 < s ∧
          ∃ l1 l2, comps = l1 ++ c :: l2 ∧
            ∀ d ∈ l1, d.index ∉ matched →
              (fuzzy_match_names lib aiName d.name t).1 = true →
              (fuzzy_match_names lib aiName d.name t).2 < s)) ∧
      (∀ d ∈ comps, d.index ∉ matched →
        (fuzzy_match_names lib aiName d.name t).1 = true →
        (fuzzy_match_names lib aiName d.name t).2 ≤ s) := by
  intro comps
  induction comps with
  | nil =>
    intro best0 bs0 c s h
    simp only [findBestMatch, Prod.mk.injEq] at h
    exact ⟨Or.inl ⟨h.1, h.2.symm⟩, by simp⟩
  | cons comp rest ih =>
    intro best0 bs0 c s h
    simp only [findBestMatch] at h
    by_cases hm : comp.index ∈ matched
    · rw [if_pos hm] at h
      obtain ⟨hd, hall⟩ := ih best0 bs0 c s h
      constructor
      · rcases hd with h1 | ⟨h1, h2, h3, h4, l1, l2, hsplit, hfirst⟩
        · exact Or.inl h1
        · refine Or.inr ⟨h1, h2, h3, h4, comp :: l1, l2, by rw [hsplit]; rfl, ?_⟩
          intro d hd' hdm him
          rcases List.mem_cons.mp hd' with h5 | h5
          · rw [h5] at hdm
            exact absurd hm hdm
          · exact hfirst d h5 hdm him
      · intro d hd' hdm him
        rcases List.mem_cons.mp hd' with h1 | h1
        · rw [h1] at hdm
          exact absurd hm hdm
        · exact hall d h1 hdm him
    · rw [if_neg hm] at h
      by_cases hq : (fuzzy_match_names lib aiName comp.name t).1 = true ∧
          bs0 < (fuzzy_match_names lib aiName comp.name t).2
      · rw [if_pos hq] at h
        obtain ⟨hd, hall⟩ := ih (some comp) ((fuzzy_match_names lib aiName comp.name t).2) c s h
        rcases hd with ⟨h1, h2⟩ | ⟨h1, h2, h3, h4, l1, l2, hsplit, hfirst⟩
        · have hc : comp = c := by
            injection h1
          constructor
          · refine Or.inr ?_
            rw [← hc]
            refine ⟨hm, hq.1, h2.symm, by omega, [], rest, rfl, ?_⟩
            intro d hd'
            simp at hd'
          · intro d hd' hdm him
            rcases List.mem_cons.mp hd' with h5 | h5
            · rw [h5]
              omega
            · exact hall d h5 hdm him
        · constructor
          · refine Or.inr ⟨h1, h2, h3, by omega, comp :: l1, l2, by rw [hsplit]; rfl, ?_⟩
            intro d hd' hdm him
            rcases List.mem_cons.mp hd' with h5 | h5
            · rw [h5]
              omega
            · exact hfirst d h5 hdm him
          · intro d hd' hdm him
            rcases List.mem_cons.mp hd' with h5 | h5
            · rw [h5]
              omega
            · exact hall d h5 hdm him
      · rw [if_neg hq] at h
        obtain ⟨hd, hall⟩ := ih best0 bs0 c s h
        have hbs : bs0 ≤ s := by
          rcases hd with ⟨-, h2⟩ | ⟨-, -, -, h4, -⟩
          · omega
          · omega
        have hcomp : (fuzzy_match_names lib aiName comp.name t).1 = true →
            (fuzzy_match_names lib aiName comp.name t).2 ≤ bs0 := by
          intro him
          by_contra hgt
          exact hq ⟨him, by omega⟩
        constructor
        · rcases hd with h1 | ⟨h1, h2, h3, h4, l1, l2, hsplit, hfirst⟩
          · exact Or.inl h1
          · refine Or.inr ⟨h1, h2, h3, h4, comp :: l1, l2, by rw [hsplit]; rfl, ?_⟩
            intro d hd' hdm him
            rcases List.mem_cons.mp hd' with h5 | h5
            · rw [h5]
              have := hcomp (by rw [← h5]; exact him)
              omega
            · exact hfirst d h5 hdm him
        · intro d hd' hdm him
          rcases List.mem_cons.mp hd' with h5 | h5
          · rw [h5]
            have := hcomp (by rw [← h5]; exact him)
            omega
          · exact hall d h5 hdm him

/-- When the greedy scan returns no candidate, no not-yet-consumed
candidate qualifies (matches with a score strictly above the initial
running score). -/
theorem findBestMatch_none (lib : FuzzLib) (t : Nat) (matched : List Nat) (aiName : List Char) :
    ∀ comps : List Candidate, ∀ best0 : Option Candidate, ∀ bs0 s0 : Nat,
      findBestMatch lib t matched aiName comps best0 bs0 = (none, s0) →
      best0 = none ∧ s0 = bs0 ∧
        ∀ d ∈ comps, d.index ∉ matched →
          ¬((fuzzy_match_names lib aiName d.name t).1 = true ∧
            bs0 < (fuzzy_match_names lib aiName d.name t).2) := by
  intro comps
  induction comps with
  | nil =>
    intro best0 bs0 s0 h
    simp only [findBestMatch, Prod.mk.injEq] at h
    exact ⟨h.1, h.2.symm, by simp⟩
  | cons comp rest ih =>
    intro best0 bs0 s0 h
    simp only [findBestMatch] at h
    by_cases hm : comp.index ∈ matched
    · rw [if_pos hm] at h
      obtain ⟨h1, h2, h3⟩ := ih best0 bs0 s0 h
      refine ⟨h1, h2, ?_⟩
      intro d hd hdm
      rcases List.mem_cons.mp hd with h5 | h5
      · rw [h5] at hdm
        exact absurd hm hdm
      · exact h3 d h5 hdm
    · rw [if_neg hm] at h
      by_cases hq : (fuzzy_match_names lib aiName comp.name t).1 = true ∧
          bs0 < (fuzzy_match_names lib aiName comp.name t).2
      · rw [if_pos hq] at h
        obtain ⟨h1, -, -⟩ := ih (some comp) _ s0 h
        exact absurd h1 (by simp)
      · rw [if_neg hq] at h
        obtain ⟨h1, h2, h3⟩ := ih best0 bs0 s0 h
        refine ⟨h1, h2, ?_⟩
        intro d hd hdm
        rcases List.mem_cons.mp hd with h5 | h5
        · rw [h5]
          exact hq
        · exact h3 d h5 hdm

/-- Top-level corollary: a returned best match is an unconsumed member of
the candidate list. -/
theorem findBestMatch_top (lib : FuzzLib) (t : Nat) (matched : List Nat) (aiName : List Char)
    (comps : List Candidate) (c : Candidate) (s : Nat)
    (h : findBestMatch lib t matched aiName comps none 0 = (some c, s)) :
    c.index ∉ matched ∧ c ∈ comps := by
  obtain ⟨hd, -⟩ := findBestMatch_spec lib t matched aiName comps none 0 c s h
  rcases hd with ⟨h1, -⟩ | ⟨h1, -, -, -, l1, l2, hsplit, -⟩
  · exact absurd h1 (by simp)
  · exact ⟨h1, by rw [hsplit]; exact List.mem_append_right _ (List.mem_cons_self _ _)⟩

/-- Unfolding step of the outer loop when a best match is found. -/
theorem compareLoop_cons_some (lib : FuzzLib) (t : Nat) (comps : List Candidate)
    (ai : Candidate) (rest : List Candidate) (st : CompareState)
    (best : Candidate) (bs : Nat)
    (hfb : findBestMatch lib t st.matched_comparison_indices ai.name comps none 0
      = (some best, bs)) :
    compareLoop lib t comps (ai :: rest) st =
      compareLoop lib t comps rest
        { matches' := st.matches' ++ [⟨ai.index, best.index, ai.name, best.name, bs⟩]
          unmatched_ai := st.unmatched_ai
          matched_comparison_indices := st.matched_comparison_indices ++ [best.index] } := by
  rw [compareLoop, hfb]

/-- Unfolding step of the outer loop when no match is found. -/
theorem compareLoop_cons_none (lib : FuzzLib) (t : Nat) (comps : List Candidate)
    (ai : Candidate) (rest : List Candidate) (st : CompareState) (s0 : Nat)
    (hfb : findBestMatch lib t st.matched_comparison_indices ai.name comps none 0
      = (none, s0)) :
    compareLoop lib t comps (ai :: rest) st =
      compareLoop lib t comps rest
        { matches' := st.matches'
          unmatched_ai := st.unmatched_ai ++ [ai]
          matched_comparison_indices := st.matched_comparison_indices } := by
  rw [compareLoop, hfb]

/-- The loop keeps `matched_comparison_indices` equal to the comparison
indices of the recorded matches. -/
theorem compareLoop_matched_eq (lib : FuzzLib) (t : Nat) (comps : List Candidate) :
    ∀ ais : List Candidate, ∀ st : CompareState,
      st.matches'.map (fun m => m.comparison_index) = st.matched_comparison_indices →
      (compareLoop lib t comps ais st).matches'.map (fun m => m.comparison_index) =
        (compareLoop lib t comps ais st).matched_comparison_indices := by
  intro ais
  induction ais with
  | nil => intro st h; exact h
  | cons ai rest ih =>
    intro st h
    rcases hfb : findBestMatch lib t st.matched_comparison_indices ai.name comps none 0
      with ⟨fst, snd⟩
    cases fst with
    | some best =>
      rw [compareLoop_cons_some lib t comps ai rest st best snd hfb]
      apply ih
      simp [h]
    | none =>
      rw [compareLoop_cons_none lib t comps ai rest st snd hfb]
      exact ih _ h

/-- The consumed-target list stays duplicate-free. -/
theorem compareLoop_matched_nodup (lib : FuzzLib) (t : Nat) (comps : List Candidate) :
    ∀ ais : List Candidate, ∀ st : CompareState,
      st.matched_comparison_indices.Nodup →
      (compareLoop lib t comps ais st).matched_comparison_indices.Nodup := by
  intro ais
  induction ais with
  | nil => intro st h; exact h
  | cons ai rest ih =>
    intro st h
    rcases hfb : findBestMatch lib t st.matched_comparison_indices ai.name comps none 0
      with ⟨fst, snd⟩
    cases fst with
    | some best =>
      rw [compareLoop_cons_some lib t comps ai rest st best snd hfb]
      apply ih
      simp only [List.nodup_append, h, true_and]
      refine ⟨List.nodup_singleton _, ?_⟩
      intro i hi hj
      simp only [List.mem_singleton] at hj
      subst hj
      exact (findBestMatch_top lib t _ ai.name comps best snd hfb).1 hi
    | none =>
      rw [compareLoop_cons_none lib t comps ai rest st snd hfb]
      exact ih _ h

/-- Every consumed target index comes from the comparison candidate list
(or was already consumed initially). -/
theorem compareLoop_matched_sub (lib : FuzzLib) (t : Nat) (comps : List Candidate) :
    ∀ ais : List Candidate, ∀ st : CompareState,
      ∀ i ∈ (compareLoop lib t comps ais st).matched_comparison_indices,
        i ∈ st.matched_comparison_indices ∨ i ∈ comps.map (fun c => c.index) := by
  intro ais
  induction ais with
  | nil => intro st i hi; exact Or.inl hi
  | cons ai rest ih =>
    intro st i hi
    rcases hfb : findBestMatch lib t st.matched_comparison_indices ai.name comps none 0
      with ⟨fst, snd⟩
    cases fst with
    | some best =>
      rw [compareLoop_cons_some lib t comps ai rest st best snd hfb] at hi
      rcases ih _ i hi with h1 | h1
      · simp only [List.mem_append, List.mem_singleton] at h1
        rcases h1 with h2 | h2
        · exact Or.inl h2
        · subst h2
          exact Or.inr (List.mem_map_of_mem _
            (findBestMatch_top lib t _ ai.name comps best snd hfb).2)
      · exact Or.inr h1
    | none =>
      rw [compareLoop_cons_none lib t comps ai rest st snd hfb] at hi
      exact ih ⟨st.matches', st.unmatched_ai ++ [ai], st.matched_comparison_indices⟩ i hi

/-- The match list grows by entries whose source indices are, in order, a
sublist of the processed source candidates' indices. -/
theorem compareLoop_ai_delta (lib : FuzzLib) (t : Nat) (comps : List Candidate) :
    ∀ ais : List Candidate, ∀ st : CompareState,
      ∃ delta : List MatchEntry,
        (compareLoop lib t comps ais st).matches' = st.matches' ++ delta ∧
        List.Sublist (delta.map (fun m => m.ai_index)) (ais.map (fun a => a.index)) := by
  intro ais
  induction ais with
  | nil => intro st; exact ⟨[], by simp [compareLoop], by simp⟩
  | cons ai rest ih =>
    intro st
    rcases hfb : findBestMatch lib t st.matched_comparison_indices ai.name comps none 0
      with ⟨fst, snd⟩
    cases fst with
    | some best =>
      rw [compareLoop_cons_some lib t comps ai rest st best snd hfb]
      obtain ⟨delta, hdelta, hsub⟩ := ih
        { matches' := st.matches' ++ [⟨ai.index, best.index, ai.name, best.name, snd⟩]
          unmatched_ai := st.unmatched_ai
          matched_comparison_indices := st.matched_comparison_indices ++ [best.index] }
      refine ⟨⟨ai.index, best.index, ai.name, best.name, snd⟩ :: delta, ?_, ?_⟩
      · rw [hdelta]
        simp
      · simp only [List.map_cons]
        exact List.Sublist.cons₂ _ hsub
    | none =>
      rw [compareLoop_cons_none lib t comps ai rest st snd hfb]
      obtain ⟨delta, hdelta, hsub⟩ := ih
        { matches' := st.matches'
          unmatched_ai := st.unmatched_ai ++ [ai]
          matched_comparison_indices := st.matched_comparison_indices }
      exact ⟨delta, hdelta, hsub.trans (List.sublist_cons_self _ _)⟩

/-- Every processed source candidate lands in exactly one of the match
list and the unmatched-source list. -/
theorem compareLoop_count (lib : FuzzLib) (t : Nat) (comps : List Candidate) :
    ∀ ais : List Candidate, ∀ st : CompareState,
      (compareLoop lib t comps ais st).matches'.length +
        (compareLoop lib t comps ais st).unmatched_ai.length =
      st.matches'.length + st.unmatched_ai.length + ais.length := by
  intro ais
  induction ais with
  | nil =>
    intro st
    simp [compareLoop]
  | cons ai rest ih =>
    intro st
    rcases hfb : findBestMatch lib t st.matched_comparison_indices ai.name comps none 0
      with ⟨fst, snd⟩
    cases fst with
    | some best =>
      rw [compareLoop_cons_some lib t comps ai rest st best snd hfb]
      rw [ih]
      simp only [List.length_append, List.length_cons, List.length_nil]
      omega
    | none =>
      rw [compareLoop_cons_none lib t comps ai rest st snd hfb]
      rw [ih]
      simp only [List.length_append, List.length_cons, List.length_nil]
      omega

/-- Generic transport: mapping a projection over a `filterMap` is a
sublist of mapping a compatible projection over the original list. -/
theorem map_filterMap_sublist {α β γ : Type} (l : List α) (f : α → Option β) (g : β → γ)
    (h : α → γ) (hfg : ∀ a b, f a = some b → g b = h a) :
    List.Sublist ((l.filterMap f).map g) (l.map h) := by
  induction l with
  | nil => simp
  | cons a rest ih =>
    rw [List.filterMap_cons, List.map_cons]
    cases hfa : f a with
    | none => exact ih.trans (List.sublist_cons_self _ _)
    | some b =>
      rw [List.map_cons, hfg a b hfa]
      exact List.Sublist.cons₂ _ ih

/-- The candidate indices of a roster are, in order, a sublist of the row
numbers, hence duplicate-free. -/
theorem buildCandidates_map_index (rows : List (List Cell)) :
    List.Sublist ((buildCandidates rows).map (fun c => c.index)) (List.range' 0 rows.length) := by
  unfold buildCandidates
  have h := map_filterMap_sublist rows.enum
    (fun p => if pyStrip (_create_combined_name p.2) = [] then none
      else some (⟨p.1, pyStrip (_create_combined_name p.2)⟩ : Candidate))
    (fun c => c.index) Prod.fst ?_
  · rw [List.enum_eq_enumFrom] at h
    rwa [List.enumFrom_map_fst] at h
  · intro a b hab
    by_cases hc : pyStrip (_create_combined_name a.2) = []
    · simp [hc] at hab
    · simp only [hc, if_false, Option.some.injEq] at hab
      rw [← hab]

theorem buildCandidates_index_nodup (rows : List (List Cell)) :
    ((buildCandidates rows).map (fun c => c.index)).Nodup :=
  (buildCandidates_map_index rows).nodup (List.nodup_range' (s := 0) (n := rows.length))

/-- The candidate count is the number of identity-bearing rows. -/
theorem buildCandidates_length (rows : List (List Cell)) :
    (buildCandidates rows).length =
      (rows.filter (fun r => decide (pyStrip (_create_combined_name r) ≠ []))).length := by
  unfold buildCandidates
  rw [List.enum_eq_enumFrom]
  suffices h : ∀ (n : Nat) (l : List (List Cell)),
      ((List.enumFrom n l).filterMap (fun p =>
        if pyStrip (_create_combined_name p.2) = [] then none
        else some (⟨p.1, pyStrip (_create_combined_name p.2)⟩ : Candidate))).length =
      (l.filter (fun r => decide (pyStrip (_create_combined_name r) ≠ []))).length by
    exact h 0 rows
  intro n l
  induction l generalizing n with
  | nil => rfl
  | cons r rest ih =>
    rw [List.enumFrom_cons, List.filterMap_cons]
    by_cases hr : pyStrip (_create_combined_name r) = []
    · rw [if_pos hr, ih (n + 1)]
      have hfr : (List.filter (fun r => decide (pyStrip (_create_combined_name r) ≠ []))
          (r :: rest)) = List.filter (fun r => decide (pyStrip (_create_combined_name r) ≠ []))
          rest := by
        simp [List.filter_cons, hr]
      rw [hfr]
    · rw [if_neg hr, List.length_cons, ih (n + 1)]
      have hfr : (List.filter (fun r => decide (pyStrip (_create_combined_name r) ≠ []))
          (r :: rest)) = r :: List.filter (fun r => decide (pyStrip (_create_combined_name r) ≠ []))
          rest := by
        simp [List.filter_cons, hr]
      rw [hfr, List.length_cons]

/-- C1: for every scorer library, every pair of rosters and every
threshold, the match result of `compare_data` is one-to-one: no
comparison (target) row index appears in two match triples and no AI
(source) row index appears in two match triples. -/
theorem compare_data_one_to_one (lib : FuzzLib) (aiRows compRows : List (List Cell)) (t : Nat) :
    ((compare_data lib aiRows compRows t).matches'.map (fun m => m.comparison_index)).Nodup ∧
    ((compare_data lib aiRows compRows t).matches'.map (fun m => m.ai_index)).Nodup := by
  unfold compare_data
  constructor
  · rw [compareLoop_matched_eq lib t (buildCandidates compRows) (buildCandidates aiRows)
      ⟨[], [], []⟩ rfl]
    exact compareLoop_matched_nodup lib t _ _ _ (by simp)
  · obtain ⟨delta, hdelta, hsub⟩ := compareLoop_ai_delta lib t (buildCandidates compRows)
      (buildCandidates aiRows) ⟨[], [], []⟩
    rw [hdelta]
    simp only [List.nil_append]
    exact (hsub.trans (buildCandidates_map_index aiRows)).nodup
      (List.nodup_range' (s := 0) (n := aiRows.length))

/-- Filtering candidates by index membership commutes with projecting the
index. -/
theorem map_index_filter_mem (comps : List Candidate) (m : List Nat) :
    (comps.filter (fun c => decide (c.index ∈ m))).map (fun c => c.index) =
      (comps.map (fun c => c.index)).filter (fun i => decide (i ∈ m)) := by
  induction comps with
  | nil => rfl
  | cons c rest ih =>
    by_cases hc : c.index ∈ m
    · simp [List.filter_cons, hc, ih]
    · simp [List.filter_cons, hc, ih]

/-- A duplicate-free list of indices drawn from a duplicate-free pool
selects exactly its own number of pool elements. -/
theorem filter_mem_length_eq (A m : List Nat)
    (hA : A.Nodup) (hm : m.Nodup) (hsub : ∀ i ∈ m, i ∈ A) :
    (A.filter (fun i => decide (i ∈ m))).length = m.length := by
  have hperm : List.Perm (A.filter (fun i => decide (i ∈ m))) m := by
    apply (List.perm_ext_iff_of_nodup (hA.filter _) hm).mpr
    intro a
    simp only [List.mem_filter, decide_eq_true_eq]
    constructor
    · rintro ⟨-, h⟩
      exact h
    · intro h
      exact ⟨hsub a h, h⟩
  exact hperm.length_eq

/-- C7: for every run of `compare_data`, the number of matches plus the
number of unmatched source entries equals the number of identity-bearing
source rows (rows whose combined name is non-empty), and symmetrically
for the target roster. -/
theorem compare_data_partition (lib : FuzzLib) (aiRows compRows : List (List Cell)) (t : Nat) :
    (compare_data lib aiRows compRows t).matches'.length +
        (compare_data lib aiRows compRows t).unmatched_ai.length =
      (aiRows.filter (fun r => decide (pyStrip (_create_combined_name r) ≠ []))).length ∧
    (compare_data lib aiRows compRows t).matches'.length +
        (compare_data lib aiRows compRows t).unmatched_comparison.length =
      (compRows.filter (fun r => decide (pyStrip (_create_combined_name r) ≠ []))).length := by
  unfold compare_data
  dsimp only
  constructor
  · have h := compareLoop_count lib t (buildCandidates compRows) (buildCandidates aiRows)
      ⟨[], [], []⟩
    rw [← buildCandidates_length aiRows]
    simpa using h
  · have hmeq := compareLoop_matched_eq lib t (buildCandidates compRows)
      (buildCandidates aiRows) ⟨[], [], []⟩ rfl
    have hnodup := compareLoop_matched_nodup lib t (buildCandidates compRows)
      (buildCandidates aiRows) ⟨[], [], []⟩ (by simp)
    have hsub := compareLoop_matched_sub lib t (buildCandidates compRows)
      (buildCandidates aiRows) ⟨[], [], []⟩
    set M := (compareLoop lib t (buildCandidates compRows) (buildCandidates aiRows)
      ⟨[], [], []⟩).matched_comparison_indices with hM
    have hMsub : ∀ i ∈ M, i ∈ (buildCandidates compRows).map (fun c => c.index) := by
      intro i hi
      rcases hsub i hi with h1 | h1
      · simp at h1
      · exact h1
    have hlen : (compareLoop lib t (buildCandidates compRows) (buildCandidates aiRows)
        ⟨[], [], []⟩).matches'.length = M.length := by
      rw [← hmeq]
      exact (List.length_map _ _).symm
    have hneg : (buildCandidates compRows).filter (fun c => decide (c.index ∉ M)) =
        (buildCandidates compRows).filter (fun c => !(decide (c.index ∈ M))) := by
      congr 1
      funext c
      simp [decide_not]
    have hpos_len : ((buildCandidates compRows).filter
        (fun c => decide (c.index ∈ M))).length = M.length := by
      have h1 : ((buildCandidates compRows).filter
          (fun c => decide (c.index ∈ M))).length =
          (((buildCandidates compRows).filter (fun c => decide (c.index ∈ M))).map
            (fun c => c.index)).length := (List.length_map _ _).symm
      rw [h1, map_index_filter_mem]
      exact filter_mem_length_eq _ M (buildCandidates_index_nodup compRows) hnodup hMsub
    have hsplit := List.length_eq_length_filter_add
      (l := buildCandidates compRows) (fun c => decide (c.index ∈ M))
    rw [hlen, ← buildCandidates_length compRows, hneg]
    omega

/-! Concrete fixtures for the greedy-selection scenario of C2. -/

/-- A scorer that rates the (normalized) target name `"Bob Jones"` at 95
and every other target at 91. -/
def demoScore : List Char → List Char → Nat :=
  fun _ b => if b = "Bob Jones".toList then 95 else 91

def demoLib : FuzzLib := ⟨demoScore, demoScore, demoScore, demoScore⟩

def demoAiRows : List (List Cell) := [[some "Al Pacino".toList]]

def demoCompRows : List (List Cell) := [[some "Bob Jones".toList], [some "Rob Jones".toList]]

def demoExpected : CompareResult :=
  { matches' := [⟨0, 0, "Al Pacino".toList, "Bob Jones".toList, 95⟩]
    unmatched_ai := []
    unmatched_comparison := [⟨1, "Rob Jones".toList⟩] }

/-- C2: greedy linking processes source candidates in original row order;
for each source, the inner scan (`findBestMatch`, starting from
`best_score = 0` and skipping consumed targets) selects among the
not-yet-consumed targets the one with the strictly highest fuzzy score
clearing the threshold, resolving ties in favour of the first-encountered
target, and selects a target whenever one clears the threshold; a
consumed target is never offered to a later source row (the scan skips
every index in `matched`).  In particular, with one source scoring 95
against one target and 91 against another under threshold 80, the source
is assigned only to the 95-scoring target and the 91-scoring target
remains unmatched. -/
theorem compare_data_greedy :
    (∀ (lib : FuzzLib) (t : Nat) (matched : List Nat) (aiName : List Char)
        (comps : List Candidate) (c : Candidate) (s : Nat), 1 ≤ t →
      findBestMatch lib t matched aiName comps none 0 = (some c, s) →
      (c.index ∉ matched ∧
        fuzzy_match_names lib aiName c.name t = (true, s) ∧
        t ≤ s ∧
        (∀ d ∈ comps, d.index ∉ matched →
          (fuzzy_match_names lib aiName d.name t).1 = true →
          (fuzzy_match_names lib aiName d.name t).2 ≤ s) ∧
        (∃ l1 l2, comps = l1 ++ c :: l2 ∧
          ∀ d ∈ l1, d.index ∉ matched →
            (fuzzy_match_names lib aiName d.name t).1 = true →
            (fuzzy_match_names lib aiName d.name t).2 < s))) ∧
    (∀ (lib : FuzzLib) (t : Nat) (matched : List Nat) (aiName : List Char)
        (comps : List Candidate) (s0 : Nat), 1 ≤ t →
      findBestMatch lib t matched aiName comps none 0 = (none, s0) →
      ∀ d ∈ comps, d.index ∉ matched →
        (fuzzy_match_names lib aiName d.name t).1 = false) ∧
    compare_data demoLib demoAiRows demoCompRows 80 = demoExpected := by
  refine ⟨?_, ?_, ?_⟩
  · intro lib t matched aiName comps c s ht h
    obtain ⟨hd, hall⟩ := findBestMatch_spec lib t matched aiName comps none 0 c s h
    rcases hd with ⟨h1, -⟩ | ⟨h1, h2, h3, h4, l1, l2, hsplit, hfirst⟩
    · exact absurd h1 (by simp)
    · have hpair : fuzzy_match_names lib aiName c.name t = (true, s) := by
        rw [Prod.ext_iff]
        exact ⟨h2, h3⟩
      have hts : t ≤ s := by
        have := (fuzzy_isMatch_iff lib aiName c.name t ht).mp h2
        omega
      exact ⟨h1, hpair, hts, hall, l1, l2, hsplit, hfirst⟩
  · intro lib t matched aiName comps s0 ht h
    obtain ⟨-, -, hno⟩ := findBestMatch_none lib t matched aiName comps none 0 s0 h
    intro d hd hdm
    by_contra him
    rw [Bool.not_eq_false] at him
    have hsc := (fuzzy_isMatch_iff lib aiName d.name t ht).mp him
    exact hno d hd hdm ⟨him, by omega⟩
  · decide

/-- Witness for the greedy-selection characterization of C2, at the
scenario fixture: the inner scan returns the 95-scoring target. -/
theorem compare_data_greedy_witness :
    (⟨0, "Bob Jones".toList⟩ : Candidate).index ∉ ([] : List Nat) ∧
      fuzzy_match_names demoLib "Al Pacino".toList "Bob Jones".toList 80 = (true, 95) ∧
      (80 : Nat) ≤ 95 := by
  have h := compare_data_greedy.1 demoLib 80 [] ("Al Pacino".toList)
    [⟨0, "Bob Jones".toList⟩, ⟨1, "Rob Jones".toList⟩] ⟨0, "Bob Jones".toList⟩ 95
    (by decide) (by decide)
  exact ⟨h.1, h.2.1, h.2.2.1⟩

/-! Address comparison (`TraversaDataProcessor`,
traversa_data_processor.py, lines 214-337). -/

/-- Python `s.startswith(p)`. -/
def leadsWith (p s : List Char) : Bool :=
  decide (s.take p.length = p)

/-- Python `s.endswith(p)`. -/
def trailsWith (p s : List Char) : Bool :=
  decide (p.length ≤ s.length ∧ s.drop (s.length - p.length) = p)

/-- Python `p in s` (substring containment). -/
def containsSub (s p : List Char) : Bool :=
  (List.range (s.length + 1)).any (fun i => leadsWith p (s.drop i))

/-- Structural helper for `pyReplace`: the fuel bounds the number of
steps (one character is consumed per step, so `s.length` fuel always
suffices). -/
def pyReplaceAux (pat rep : List Char) : Nat → List Char → List Char
  | 0, s => s
  | _ + 1, [] => []
  | fuel + 1, c :: rest =>
    if pat ≠ [] ∧ leadsWith pat (c :: rest) = true then
      rep ++ pyReplaceAux pat rep fuel ((c :: rest).drop pat.length)
    else c :: pyReplaceAux pat rep fuel rest

/-- Python `s.replace(pat, rep)`: replace all non-overlapping occurrences
left to right.  All call sites use a nonempty pattern; an empty pattern
leaves the string unchanged here. -/
def pyReplace (s pat rep : List Char) : List Char :=
  pyReplaceAux pat rep s.length s

/-- The `suffixes_to_remove` list of
`_normalize_address_for_comparison` (lines 222-225). -/
def addressSuffixesToRemove : List (List Char) :=
  [", united states".toList, " united states".toList, " usa".toList, " us".toList,
   ", mn".toList, " mn".toList, ", minnesota".toList, " minnesota".toList]

/-- The `directional_replacements` dict (lines 232-235), in insertion
order. -/
def directionalReplacements : List (List Char × List Char) :=
  [(" north ".toList, " n ".toList), (" south ".toList, " s ".toList),
   (" east ".toList, " e ".toList), (" west ".toList, " w ".toList),
   (" n ".toList, " n ".toList), (" s ".toList, " s ".toList),
   (" e ".toList, " e ".toList), (" w ".toList, " w ".toList)]

/-- The `street_replacements` dict (lines 241-245), in insertion order. -/
def streetReplacements : List (List Char × List Char) :=
  [(" street".toList, " st".toList), (" avenue".toList, " ave".toList),
   (" road".toList, " rd".toList), (" drive".toList, " dr".toList),
   (" boulevard".toList, " blvd".toList), (" lane".toList, " ln".toList),
   (" court".toList, " ct".toList), (" circle".toList, " cir".toList),
   (" place".toList, " pl".toList)]

/-- `TraversaDataProcessor._normalize_address_for_comparison`
(lines 214-254). -/
def _normalize_address_for_comparison (address : List Char) : List Char :=
  if address = [] then []
  else
    let addr0 := pyStrip (pyLower address)
    let addr1 := addressSuffixesToRemove.foldl (fun a suffix =>
      if trailsWith suffix a then pyStrip (a.take (a.length - suffix.length)) else a) addr0
    let addr2 := directionalReplacements.foldl (fun a p => pyReplace a p.1 p.2) addr1
    let addr3 := streetReplacements.foldl (fun a p => pyReplace a p.1 p.2) addr2
    let addr4 := pyReplace (pyReplace addr3 [','] [' ']) ['.'] []
    joinSpace (pySplit addr4)

/-- `TraversaDataProcessor._addresses_are_equivalent` (lines 256-284). -/
def _addresses_are_equivalent (addr1 addr2 : List Char) : Bool :=
  if _normalize_address_for_comparison addr1 = _normalize_address_for_comparison addr2 then
    true
  else if _normalize_address_for_comparison addr1 ≠ [] ∧
      _normalize_address_for_comparison addr2 ≠ [] then
    if 2 ≤ (pySplit (_normalize_address_for_comparison addr1)).length ∧
        2 ≤ (pySplit (_normalize_address_for_comparison addr2)).length then
      if joinSpace ((pySplit (_normalize_address_for_comparison addr1)).take 3) =
          joinSpace ((pySplit (_normalize_address_for_comparison addr2)).take 3) then true
      else if containsSub (_normalize_address_for_comparison addr2)
            (joinSpace ((pySplit (_normalize_address_for_comparison addr1)).take 3)) ∨
          containsSub (_normalize_address_for_comparison addr1)
            (joinSpace ((pySplit (_normalize_address_for_comparison addr2)).take 3)) then true
      else false
    else false
  else false

/-- C9: address equivalence is symmetric: for every pair of address
strings, `_addresses_are_equivalent a b = _addresses_are_equivalent b a`
(the direct-match test, the house/street prefix test and the containment
disjunction are all symmetric in the two normalized addresses). -/
theorem addresses_are_equivalent_symm (a b : List Char) :
    _addresses_are_equivalent a b = _addresses_are_equivalent b a := by
  unfold _addresses_are_equivalent
  by_cases h1 : _normalize_address_for_comparison a = _normalize_address_for_comparison b
  · rw [if_pos h1, if_pos h1.symm]
  · rw [if_neg h1, if_neg (Ne.symm h1)]
    by_cases h2 : _normalize_address_for_comparison a ≠ [] ∧
        _normalize_address_for_comparison b ≠ []
    · rw [if_pos h2, if_pos (show _normalize_address_for_comparison b ≠ [] ∧
        _normalize_address_for_comparison a ≠ [] from ⟨h2.2, h2.1⟩)]
      by_cases h3 : 2 ≤ (pySplit (_normalize_address_for_comparison a)).length ∧
          2 ≤ (pySplit (_normalize_address_for_comparison b)).length
      · rw [if_pos h3, if_pos (show
          2 ≤ (pySplit (_normalize_address_for_comparison b)).length ∧
          2 ≤ (pySplit (_normalize_address_for_comparison a)).length from ⟨h3.2, h3.1⟩)]
        by_cases h4 : joinSpace ((pySplit (_normalize_address_for_comparison a)).take 3) =
            joinSpace ((pySplit (_normalize_address_for_comparison b)).take 3)
        · rw [if_pos h4, if_pos h4.symm]
        · rw [if_neg h4, if_neg (Ne.symm h4)]
          by_cases h5 : containsSub (_normalize_address_for_comparison b)
              (joinSpace ((pySplit (_normalize_address_for_comparison a)).take 3)) = true ∨
              containsSub (_normalize_address_for_comparison a)
              (joinSpace ((pySplit (_normalize_address_for_comparison b)).take 3)) = true
          · rw [if_pos h5, if_pos (Or.symm h5)]
          · rw [if_neg h5, if_neg (show ¬(containsSub (_normalize_address_for_comparison a)
              (joinSpace ((pySplit (_normalize_address_for_comparison b)).take 3)) = true ∨
              containsSub (_normalize_address_for_comparison b)
              (joinSpace ((pySplit (_normalize_address_for_comparison a)).take 3)) = true)
              from fun hc => h5 (Or.symm hc))]
      · rw [if_neg h3, if_neg (show ¬(2 ≤ (pySplit
          (_normalize_address_for_comparison b)).length ∧
          2 ≤ (pySplit (_normalize_address_for_comparison a)).length)
          from fun hc => h3 ⟨hc.2, hc.1⟩)]
    · rw [if_neg h2, if_neg (show ¬(_normalize_address_for_comparison b ≠ [] ∧
        _normalize_address_for_comparison a ≠ [])
        from fun hc => h2 ⟨hc.2, hc.1⟩)]

/-! The transportation need classifier
(`TraversaDataProcessor._analyze_transportation_needs`, lines 339-373). -/

/-- The `no_transport_indicators` list (lines 347-350). -/
def no_transport_indicators : List (List Char) :=
  ["not need transportation".toList, "decline service".toList, "no transportation".toList,
   "will not need".toList, "do not need".toList,
   ("don".toList ++ [Char.ofNat 39] ++ "t need".toList), "no transport".toList]

/-- The AM indicator phrases (lines 356-358). -/
def am_indicators : List (List Char) :=
  ["am route".toList, "home to school".toList, "morning".toList,
   "to school".toList, "am program".toList]

/-- The PM indicator phrases (lines 360-362). -/
def pm_indicators : List (List Char) :=
  ["pm route".toList, "school to home".toList, "afternoon".toList,
   "from school".toList, "pm program".toList]

/-- `TraversaDataProcessor._analyze_transportation_needs` (lines 339-373):
missing or empty text means no transportation; an explicit decline phrase
wins; otherwise the AM and PM indicator sets are checked independently. -/
def _analyze_transportation_needs (transport_text : Cell) : List Char :=
  match transport_text with
  | none => "No Transportation".toList
  | some s =>
    if s = [] then "No Transportation".toList
    else if no_transport_indicators.any (fun ind => containsSub (pyLower s) ind) then
      "No Transportation".toList
    else if (am_indicators.any (fun ind => containsSub (pyLower s) ind)) &&
        (pm_indicators.any (fun ind => containsSub (pyLower s) ind)) then
      "Both AM & PM".toList
    else if am_indicators.any (fun ind => containsSub (pyLower s) ind) then
      "AM Only".toList
    else if pm_indicators.any (fun ind => containsSub (pyLower s) ind) then
      "PM Only".toList
    else "Other/Unclear".toList

/-- The classifier's fixed taxonomy. -/
def transportCategories : List (List Char) :=
  ["No Transportation".toList, "AM Only".toList, "PM Only".toList,
   "Both AM & PM".toList, "Other/Unclear".toList]

/-- The classifier always lands in the five-category taxonomy. -/
theorem analyze_transport_mem (c : Cell) :
    _analyze_transportation_needs c ∈ transportCategories := by
  match c with
  | none => simp [_analyze_transportation_needs, transportCategories]
  | some s =>
    simp only [_analyze_transportation_needs]
    split_ifs <;> simp [transportCategories]

/-- C8: the transportation classifier always returns one of the five
categories; empty or missing input gives No Transportation; any decline
phrase gives No Transportation regardless of other content (highest
priority); otherwise the AM- and PM-phrase sets are checked
independently, with both present giving Both AM & PM, only AM giving
AM Only, only PM giving PM Only and neither giving Other/Unclear; and the
four concrete scenario texts classify as documented. -/
theorem transportation_classifier_spec :
    (∀ c : Cell, _analyze_transportation_needs c ∈ transportCategories) ∧
    _analyze_transportation_needs none = "No Transportation".toList ∧
    _analyze_transportation_needs (some []) = "No Transportation".toList ∧
    (∀ s : List Char, s ≠ [] →
      no_transport_indicators.any (fun ind => containsSub (pyLower s) ind) = true →
      _analyze_transportation_needs (some s) = "No Transportation".toList) ∧
    (∀ s : List Char, s ≠ [] →
      no_transport_indicators.any (fun ind => containsSub (pyLower s) ind) = false →
      ((am_indicators.any (fun ind => containsSub (pyLower s) ind) = true →
        pm_indicators.any (fun ind => containsSub (pyLower s) ind) = true →
        _analyze_transportation_needs (some s) = "Both AM & PM".toList) ∧
       (am_indicators.any (fun ind => containsSub (pyLower s) ind) = true →
        pm_indicators.any (fun ind => containsSub (pyLower s) ind) = false →
        _analyze_transportation_needs (some s) = "AM Only".toList) ∧
       (am_indicators.any (fun ind => containsSub (pyLower s) ind) = false →
        pm_indicators.any (fun ind => containsSub (pyLower s) ind) = true →
        _analyze_transportation_needs (some s) = "PM Only".toList) ∧
       (am_indicators.any (fun ind => containsSub (pyLower s) ind) = false →
        pm_indicators.any (fun ind => containsSub (pyLower s) ind) = false →
        _analyze_transportation_needs (some s) = "Other/Unclear".toList))) ∧
    _analyze_transportation_needs (some "AM route to school".toList) = "AM Only".toList ∧
    _analyze_transportation_needs (some "school to home in the afternoon".toList)
      = "PM Only".toList ∧
    _analyze_transportation_needs (some "student will not need transportation".toList)
      = "No Transportation".toList ∧
    _analyze_transportation_needs (some "parent signature required".toList)
      = "Other/Unclear".toList := by
  refine ⟨analyze_transport_mem, rfl, by decide, ?_, ?_, by decide, by decide, by decide,
    by decide⟩
  · intro s hs hno
    simp [_analyze_transportation_needs, hs, hno]
  · intro s hs hno
    refine ⟨?_, ?_, ?_, ?_⟩ <;> intro ham hpm <;>
      simp [_analyze_transportation_needs, hs, hno, ham, hpm]

/-- Witness for C8 at a concrete decline text. -/
theorem transportation_classifier_witness :
    "student will not need transportation".toList ≠ ([] : List Char) ∧
      _analyze_transportation_needs (some "student will not need transportation".toList)
        = "No Transportation".toList :=
  ⟨by decide, transportation_classifier_spec.2.2.2.1 _ (by decide) (by decide)⟩

/-! The name-likeness classifier and column detector
(`StudentDataComparator._is_name_like` and `detect_name_columns`,
student_data_comparator.py, lines 182-282). -/

/-- Python `str.isalpha()` (ASCII): nonempty and all letters. -/
def pyIsAlpha (s : List Char) : Bool :=
  !s.isEmpty && s.all Char.isAlpha

/-- The separators removed in `_is_name_like`'s cleaning step: space,
comma, period, hyphen, apostrophe, asterisk. -/
def nameSeparators : List Char := [' ', ',', '.', '-', Char.ofNat 39, '*']

/-- Python `s.split(sep)` for a one-character separator: split at every
occurrence, keeping empty pieces. -/
def splitOnChar (sep : Char) : List Char → List (List Char)
  | [] => [[]]
  | c :: rest =>
    if c = sep then [] :: splitOnChar sep rest
    else
      match splitOnChar sep rest with
      | t :: ts => (c :: t) :: ts
      | [] => [[c]]

/-- The final words loop of `_is_name_like` (lines 272-280): every
whitespace token, after dropping periods, apostrophes and hyphens, must
be nonempty and alphabetic. -/
def nameWordsCheck (val_str : List Char) : Bool :=
  if 1 ≤ (pySplit val_str).length then
    (pySplit val_str).all (fun word =>
      pyIsAlpha (word.filter (fun c =>
        !(c == '.' || c == Char.ofNat 39 || c == '-'))) &&
      decide (1 ≤ (word.filter (fun c =>
        !(c == '.' || c == Char.ofNat 39 || c == '-'))).length))
  else false

/-- `StudentDataComparator._is_name_like` (lines 248-282).  A comma-bearing
value with exactly two parts is checked as "Last, First"; a comma count
other than one falls through to the word check (as in the source, where
only `len(parts) == 2` returns early). -/
def _is_name_like (val : List Char) : Bool :=
  if val = [] ∨ (pyStrip val).length < 2 ∨ 100 < (pyStrip val).length then false
  else if !(pyIsAlpha ((pyStrip val).filter (fun c => !(nameSeparators.contains c)))) then
    false
  else if (pyStrip val).contains ',' = true then
    match splitOnChar ',' (pyStrip val) with
    | [last, first] =>
        pyIsAlpha ((pyStrip last).filter (fun c => !(c == ' '))) &&
        pyIsAlpha ((pyStrip first).filter (fun c => !(c == ' '))) &&
        decide (0 < (pyStrip last).length) && decide (0 < (pyStrip first).length)
    | _ => nameWordsCheck (pyStrip val)
  else nameWordsCheck (pyStrip val)

/-- One table column as seen by the detector: header, whether its pandas
dtype is `object` (strings) and its values. -/
structure TableColumn where
  header : List Char
  isObjectDtype : Bool
  values : List Cell
deriving DecidableEq

/-- The `name_indicators` list of `detect_name_columns` (lines 184-187). -/
def name_indicators : List (List Char) :=
  ["name".toList, "student".toList, "full_name".toList, "firstname".toList,
   "lastname".toList, "first_name".toList, "last_name".toList, "student_name".toList,
   "pupil".toList, "learner".toList]

/-- Headers skipped outright (line 198). -/
def skipWords : List (List Char) :=
  ["unnamed".toList, "index".toList, "id".toList, "number_of".toList]

/-- `str(col).lower().replace(' ', '_')` (line 195). -/
def colLower (h : List Char) : List Char :=
  pyReplace (pyLower h) [' '] ['_']

/-- The mutable state of the first detection pass: the accumulating
candidate list and the first/last-name columns found so far (the last
matching column wins, as in the source, which reassigns without a
guard). -/
structure DetectState where
  potential_columns : List (List Char)
  first_name_col : Option (List Char)
  last_name_col : Option (List Char)
deriving DecidableEq

/-- One step of the first pass of `detect_name_columns` (lines 193-221). -/
def detectPass1Step (st : DetectState) (col : TableColumn) : DetectState :=
  if skipWords.any (fun w => containsSub (colLower col.header) w) = true then st
  else if ["first_name".toList, "firstname".toList, "first".toList].any
      (fun ind => containsSub (colLower col.header) ind) = true then
    { potential_columns := st.potential_columns ++ [col.header]
      first_name_col := some col.header
      last_name_col := st.last_name_col }
  else if ["last_name".toList, "lastname".toList, "last".toList].any
      (fun ind => containsSub (colLower col.header) ind) = true then
    { potential_columns := st.potential_columns ++ [col.header]
      first_name_col := st.first_name_col
      last_name_col := some col.header }
  else if name_indicators.any (fun ind => containsSub (colLower col.header) ind) = true ∧
      col.header ∉ st.potential_columns ∧
      ((col.values.filterMap id).take 5).any (fun v => _is_name_like v) = true then
    { potential_columns := st.potential_columns ++ [col.header]
      first_name_col := st.first_name_col
      last_name_col := st.last_name_col }
  else st

/-- The first pass of `detect_name_columns` over all columns. -/
def detectPass1 (cols : List TableColumn) : DetectState :=
  cols.foldl detectPass1Step ⟨[], none, none⟩

/-- `StudentDataComparator.detect_name_columns` (lines 182-246): the
header-driven pass, the first/last-name reordering, and the no-header
fallback scan over object-typed columns.  Python's
`count >= len(sample) * 0.7` float comparison coincides, for the integer
counts and sample sizes (at most 10) that occur here, with
`10 * count ≥ 7 * len`. -/
def detectPotential (cols : List TableColumn) : List (List Char) :=
  match (detectPass1 cols).first_name_col, (detectPass1 cols).last_name_col with
  | some f, some l =>
    if f ≠ [] ∧ l ≠ [] then
      f :: l :: (((detectPass1 cols).potential_columns.erase f).erase l)
    else (detectPass1 cols).potential_columns
  | _, _ => (detectPass1 cols).potential_columns

def detect_name_columns (cols : List TableColumn) : List (List Char) :=
  if detectPotential cols = [] then
    cols.filterMap (fun col =>
      if col.isObjectDtype then
        if 7 * ((col.values.filterMap id).take 10).length ≤
            10 * (((col.values.filterMap id).take 10).filter _is_name_like).length then
          some col.header
        else none
      else none)
  else detectPotential cols

/-! Proofs for the name-likeness classifier. -/

theorem alpha_not_sep (c : Char) (h : c.isAlpha = true) :
    nameSeparators.contains c = false := by
  by_contra hc
  rw [Bool.not_eq_false] at hc
  have hmem : c ∈ nameSeparators := by
    simpa using hc
  fin_cases hmem <;> exact absurd h (by decide)

theorem alpha_not_space (c : Char) (h : c.isAlpha = true) :
    isSpaceChar c = false := by
  by_contra hc
  rw [Bool.not_eq_false] at hc
  simp only [isSpaceChar, Bool.or_eq_true, beq_iff_eq] at hc
  rcases hc with ((((rfl | rfl) | rfl) | rfl) | rfl) | rfl <;> exact absurd h (by decide)

theorem alpha_not_wordsep (c : Char) (h : c.isAlpha = true) :
    (!(c == '.' || c == Char.ofNat 39 || c == '-')) = true := by
  have hne : ∀ d : Char, d.isAlpha = false → (c == d) = false := by
    intro d hd
    rw [beq_eq_false_iff_ne]
    intro he
    subst he
    rw [h] at hd
    exact absurd hd (by simp)
  rw [hne '.' (by decide), hne (Char.ofNat 39) (by decide), hne '-' (by decide)]
  rfl

theorem alpha_not_comma (val_str : List Char)
    (h1 : ∀ c ∈ val_str, c.isAlpha = true) :
    val_str.contains ',' = false := by
  by_contra hc
  rw [Bool.not_eq_false] at hc
  have hmem : (',' : Char) ∈ val_str := by
    simpa using hc
  exact absurd (h1 ',' hmem) (by decide)

/-- Core of C10: a value that trims to a purely-alphabetic string of
length 2 to 100 is accepted by `_is_name_like`. -/
theorem is_name_like_of_alpha (val : List Char)
    (h0 : pyStrip val ≠ [])
    (h1 : ∀ c ∈ pyStrip val, c.isAlpha = true)
    (h2 : 2 ≤ (pyStrip val).length) (h3 : (pyStrip val).length ≤ 100) :
    _is_name_like val = true := by
  have hval : val ≠ [] := by
    intro h
    apply h0
    rw [h]
    rfl
  rw [_is_name_like]
  rw [if_neg (by push_neg; exact ⟨hval, by omega, by omega⟩)]
  have hclean : (pyStrip val).filter (fun c => !(nameSeparators.contains c)) = pyStrip val := by
    apply List.filter_eq_self.mpr
    intro c hc
    rw [alpha_not_sep c (h1 c hc)]
    rfl
  have halpha : pyIsAlpha ((pyStrip val).filter (fun c => !(nameSeparators.contains c)))
      = true := by
    rw [hclean]
    unfold pyIsAlpha
    rw [Bool.and_eq_true]
    constructor
    · simpa using h0
    · rw [List.all_eq_true]
      exact h1
  rw [if_neg (by rw [halpha]; simp)]
  rw [if_neg (by rw [alpha_not_comma (pyStrip val) h1]; simp)]
  have hsplit1 : pySplit (pyStrip val) = [pyStrip val] := by
    have hg := pySplit_joinSpace [pyStrip val]
      (by intro w hw; rw [List.mem_singleton] at hw; subst hw; exact h0)
      (by intro w hw; rw [List.mem_singleton] at hw; subst hw
          intro c hc; exact alpha_not_space c (h1 c hc))
    simpa [joinSpace] using hg
  unfold nameWordsCheck
  rw [hsplit1]
  rw [if_pos (by simp)]
  rw [List.all_eq_true]
  intro word hword
  rw [List.mem_singleton] at hword
  subst hword
  have hwclean : (pyStrip val).filter (fun c =>
      !(c == '.' || c == Char.ofNat 39 || c == '-')) = pyStrip val := by
    apply List.filter_eq_self.mpr
    intro c hc
    exact alpha_not_wordsep c (h1 c hc)
  rw [hwclean]
  rw [Bool.and_eq_true]
  constructor
  · unfold pyIsAlpha
    rw [Bool.and_eq_true]
    constructor
    · simpa using h0
    · rw [List.all_eq_true]
      exact h1
  · rw [decide_eq_true_eq]
    omega

/-! Proofs for the detection fallback. -/

theorem detectPass1Step_potential (st : DetectState) (col : TableColumn) :
    ∃ d, (detectPass1Step st col).potential_columns = st.potential_columns ++ d := by
  unfold detectPass1Step
  split_ifs <;> first
    | exact ⟨[], (List.append_nil _).symm⟩
    | exact ⟨[col.header], rfl⟩

theorem detectPass1Step_inv (st : DetectState) (col : TableColumn)
    (hP : (st.first_name_col ≠ none ∨ st.last_name_col ≠ none) →
      st.potential_columns ≠ []) :
    ((detectPass1Step st col).first_name_col ≠ none ∨
      (detectPass1Step st col).last_name_col ≠ none) →
      (detectPass1Step st col).potential_columns ≠ [] := by
  unfold detectPass1Step
  split_ifs <;> first
    | exact hP
    | (intro h; simp)

theorem detectPass1_inv (cols : List TableColumn) :
    ∀ st : DetectState,
      ((st.first_name_col ≠ none ∨ st.last_name_col ≠ none) → st.potential_columns ≠ []) →
      (((cols.foldl detectPass1Step st).first_name_col ≠ none ∨
        (cols.foldl detectPass1Step st).last_name_col ≠ none) →
        (cols.foldl detectPass1Step st).potential_columns ≠ []) := by
  induction cols with
  | nil => intro st h; exact h
  | cons col rest ih =>
    intro st h
    rw [List.foldl_cons]
    exact ih _ (detectPass1Step_inv st col h)

theorem detectPass1_none_of_empty (cols : List TableColumn)
    (h : (detectPass1 cols).potential_columns = []) :
    (detectPass1 cols).first_name_col = none ∧ (detectPass1 cols).last_name_col = none := by
  have hbase : ((⟨[], none, none⟩ : DetectState).first_name_col ≠ none ∨
      (⟨[], none, none⟩ : DetectState).last_name_col ≠ none) →
      (⟨[], none, none⟩ : DetectState).potential_columns ≠ [] := by
    intro hc
    rcases hc with hc | hc <;> exact absurd rfl hc
  by_contra hc
  rw [not_and_or] at hc
  exact detectPass1_inv cols ⟨[], none, none⟩ hbase hc h

/-- C10 (implicit): `_is_name_like` accepts every value that trims to a
single purely-alphabetic token of length 2 to 100 — including non-name
words such as `"Yes"` — and consequently, in the no-header fallback scan
(entered when the header pass finds nothing), every object-typed column
all of whose sampled values are such single alphabetic words is detected
as a name column. -/
theorem is_name_like_single_word :
    (∀ val : List Char, pyStrip val ≠ [] → (∀ c ∈ pyStrip val, c.isAlpha = true) →
      2 ≤ (pyStrip val).length → (pyStrip val).length ≤ 100 →
      _is_name_like val = true) ∧
    (∀ (cols : List TableColumn) (col : TableColumn),
      (detectPass1 cols).potential_columns = [] → col ∈ cols →
      col.isObjectDtype = true →
      (∀ v ∈ (col.values.filterMap id).take 10,
        pyStrip v ≠ [] ∧ (∀ c ∈ pyStrip v, c.isAlpha = true) ∧
        2 ≤ (pyStrip v).length ∧ (pyStrip v).length ≤ 100) →
      col.header ∈ detect_name_columns cols) := by
  constructor
  · exact is_name_like_of_alpha
  · intro cols col hempty hmem hobj hsample
    obtain ⟨hf, hl⟩ := detectPass1_none_of_empty cols hempty
    have hpot : detectPotential cols = [] := by
      unfold detectPotential
      rw [hf, hl]
      exact hempty
    unfold detect_name_columns
    rw [if_pos hpot]
    rw [List.mem_filterMap]
    refine ⟨col, hmem, ?_⟩
    rw [if_pos hobj]
    have hall : ((col.values.filterMap id).take 10).filter _is_name_like
        = (col.values.filterMap id).take 10 := by
      apply List.filter_eq_self.mpr
      intro v hv
      obtain ⟨hv0, hv1, hv2, hv3⟩ := hsample v hv
      exact is_name_like_of_alpha v hv0 hv1 hv2 hv3
    rw [hall]
    rw [if_pos (by omega)]

/-- Fixture for the C10 witness: a column with a non-name header and
single-word alphabetic values. -/
def demoCol : TableColumn :=
  ⟨"Response".toList, true, [some "Yes".toList, some "No".toList]⟩

/-- Witness for C10: `"Yes"` is accepted by `_is_name_like` and the
`Response` column of the fixture table is detected as a name column by
the fallback scan. -/
theorem is_name_like_single_word_witness :
    _is_name_like "Yes".toList = true ∧
      "Response".toList ∈ detect_name_columns [demoCol] := by
  constructor
  · exact is_name_like_single_word.1 "Yes".toList (by decide) (by decide) (by decide) (by decide)
  · exact is_name_like_single_word.2 [demoCol] demoCol (by decide) (by decide) (by decide)
      (by decide)

/-! The field reconciler (`TraversaDataProcessor._create_traversa_dataset`,
traversa_data_processor.py, lines 375-548).  A pandas DataFrame is
modelled as a column list plus rows carrying their index label and an
association list of cells; a key absent from a row is a missing (NaN)
cell.  `reset_index(drop=True)`, which only renumbers the positional
index, is omitted so that rows keep their provenance labels. -/

/-- One DataFrame row: its index label and its cells. -/
structure DataRow where
  label : Nat
  cells : List (List Char × Cell)
deriving DecidableEq

/-- A pandas DataFrame. -/
structure DataFrame where
  cols : List (List Char)
  rows : List DataRow
deriving DecidableEq

/-- Read one cell of a row (missing key = NaN). -/
def getVal (r : DataRow) (c : List Char) : Cell :=
  (r.cells.lookup c).getD none

/-- Replace (or append) a key in an association list. -/
def setAssoc (cells : List (List Char × Cell)) (c : List Char) (v : Cell) :
    List (List Char × Cell) :=
  if cells.any (fun p => p.1 == c) then
    cells.map (fun p => if p.1 == c then (c, v) else p)
  else cells ++ [(c, v)]

/-- `df.loc[i, c] = v` (pandas): update every row labelled `i`, appending
a fresh row (NaN outside `c`) when the label is absent; the column is
created when absent. -/
def setCell (df : DataFrame) (i : Nat) (c : List Char) (v : Cell) : DataFrame :=
  { cols := if c ∈ df.cols then df.cols else df.cols ++ [c]
    rows :=
      if df.rows.any (fun r => decide (r.label = i)) then
        df.rows.map (fun r => if r.label = i then ⟨r.label, setAssoc r.cells c v⟩ else r)
      else df.rows ++ [⟨i, [(c, v)]⟩] }

/-- `df[c] = v` (pandas): set a whole column to one value. -/
def setColAll (df : DataFrame) (c : List Char) (v : Cell) : DataFrame :=
  { cols := if c ∈ df.cols then df.cols else df.cols ++ [c]
    rows := df.rows.map (fun r => ⟨r.label, setAssoc r.cells c v⟩) }

/-- The first row with a given label. -/
def findRow (df : DataFrame) (i : Nat) : Option DataRow :=
  df.rows.find? (fun r => decide (r.label = i))

/-- `df.loc[i, c]` as a total read (NaN when the label is missing). -/
def getCell (df : DataFrame) (i : Nat) (c : List Char) : Cell :=
  match findRow df i with
  | some r => getVal r c
  | none => none

/-! Primitive lemmas about the DataFrame model. -/

theorem lookup_cons_true {α β : Type _} [BEq α] (k a : α) (b : β) (es : List (α × β))
    (h : (a == k) = true) : ((k, b) :: es).lookup a = some b := by
  rw [List.lookup_cons, h]

theorem lookup_cons_false {α β : Type _} [BEq α] (k a : α) (b : β) (es : List (α × β))
    (h : (a == k) = false) : ((k, b) :: es).lookup a = es.lookup a := by
  rw [List.lookup_cons, h]

theorem lookup_map_setAssoc_self (rest : List (List Char × Cell)) (c : List Char) (v : Cell)
    (hany : rest.any (fun p => p.1 == c) = true) :
    (rest.map (fun p => if p.1 == c then (c, v) else p)).lookup c = some v := by
  induction rest with
  | nil => simp at hany
  | cons p t ih =>
    rcases p with ⟨k, b⟩
    rw [List.any_cons] at hany
    by_cases hk : (k == c) = true
    · rw [List.map_cons, if_pos hk, lookup_cons_true c c v _ (by simp)]
    · rw [Bool.not_eq_true] at hk
      have hck : (c == k) = false := by
        rw [beq_eq_false_iff_ne] at hk ⊢
        exact fun h => hk h.symm
      rw [hk, Bool.false_or] at hany
      rw [List.map_cons, if_neg (by simp [hk]), lookup_cons_false k c b _ hck]
      exact ih hany

theorem lookup_append_single (cells : List (List Char × Cell)) (c : List Char) (v : Cell)
    (hany : ¬cells.any (fun p => p.1 == c) = true) :
    (cells ++ [(c, v)]).lookup c = some v := by
  induction cells with
  | nil => exact lookup_cons_true c c v _ (by simp)
  | cons p t ih =>
    rcases p with ⟨k, b⟩
    rw [List.any_cons] at hany
    simp only [Bool.or_eq_true, not_or, Bool.not_eq_true] at hany
    have hck : (c == k) = false := by
      have h1 := hany.1
      rw [beq_eq_false_iff_ne] at h1 ⊢
      exact fun h => h1 h.symm
    rw [List.cons_append, lookup_cons_false k c b _ hck]
    exact ih (by simp [hany.2])

theorem lookup_setAssoc_self (cells : List (List Char × Cell)) (c : List Char) (v : Cell) :
    (setAssoc cells c v).lookup c = some v := by
  unfold setAssoc
  by_cases hany : cells.any (fun p => p.1 == c) = true
  · rw [if_pos hany]
    exact lookup_map_setAssoc_self cells c v hany
  · rw [if_neg hany]
    exact lookup_append_single cells c v hany

theorem lookup_setAssoc_other (cells : List (List Char × Cell)) (c d : List Char) (v : Cell)
    (h : d ≠ c) : (setAssoc cells c v).lookup d = cells.lookup d := by
  have hdc : (d == c) = false := by
    rw [beq_eq_false_iff_ne]
    exact h
  unfold setAssoc
  by_cases hany : cells.any (fun p => p.1 == c) = true
  · rw [if_pos hany]
    clear hany
    induction cells with
    | nil => rfl
    | cons p t ih =>
      rcases p with ⟨k, b⟩
      by_cases hk : (k == c) = true
      · have hkc : k = c := by simpa using hk
        rw [List.map_cons, if_pos hk, lookup_cons_false c d v _ hdc, hkc,
          lookup_cons_false c d b _ hdc]
        exact ih
      · rw [Bool.not_eq_true] at hk
        rw [List.map_cons, if_neg (by simp [hk])]
        by_cases hdk : (d == k) = true
        · rw [lookup_cons_true k d b _ hdk, lookup_cons_true k d b _ hdk]
        · rw [Bool.not_eq_true] at hdk
          rw [lookup_cons_false k d b _ hdk, lookup_cons_false k d b _ hdk]
          exact ih
  · rw [if_neg hany]
    clear hany
    induction cells with
    | nil =>
      rw [List.nil_append, lookup_cons_false c d v _ hdc]
    | cons p t ih =>
      rcases p with ⟨k, b⟩
      rw [List.cons_append]
      by_cases hdk : (d == k) = true
      · rw [lookup_cons_true k d b _ hdk, lookup_cons_true k d b _ hdk]
      · rw [Bool.not_eq_true] at hdk
        rw [lookup_cons_false k d b _ hdk, lookup_cons_false k d b _ hdk]
        exact ih

theorem getVal_setAssoc_self (l : Nat) (cells : List (List Char × Cell))
    (c : List Char) (v : Cell) :
    getVal ⟨l, setAssoc cells c v⟩ c = v := by
  unfold getVal
  simp only
  rw [lookup_setAssoc_self]
  rfl

theorem getVal_setAssoc_other (l : Nat) (cells : List (List Char × Cell))
    (c d : List Char) (v : Cell) (h : d ≠ c) :
    getVal ⟨l, setAssoc cells c v⟩ d = getVal ⟨l, cells⟩ d := by
  unfold getVal
  simp only
  rw [lookup_setAssoc_other cells c d v h]

/-! ### The Traversa reconciler (`TraversaDataProcessor._create_traversa_dataset`,
src/traversa_data_processor.py lines 375-548).

Column-name constants used by the reconciler. -/

/-- The `'First Name'` column (line 395). -/
def firstNameCol : List Char := "First Name".toList

/-- The `'Last Name'` column (line 396). -/
def lastNameCol : List Char := "Last Name".toList

/-- The transportation-needs source column (lines 493, 512). -/
def transportNeedCol : List Char :=
  "When do you need transportation (check all that apply)".toList

/-- The derived `'Transportation_Category'` column (line 516). -/
def transportCategoryCol : List Char := "Transportation_Category".toList

/-- `ai_columns_to_preserve` (lines 491-494): the two raw source columns
copied verbatim per match. -/
def ai_columns_to_preserve : List (List Char) :=
  ["Please select one of the following *".toList, transportNeedCol]

/-- `prefixes_to_remove` of `_clean_address_value` (lines 294-303). -/
def aiExportTags : List (List Char) :=
  [":selected:", ":Selected:", ":SELECTED:", "Selected:", "selected:", "SELECTED:",
   "Choice:", "choice:", "CHOICE:", "Option:", "option:", "OPTION:",
   "Address:", "address:", "ADDRESS:", ":choice:", ":Choice:", ":CHOICE:",
   ":option:", ":Option:", ":OPTION:", ":address:", ":Address:", ":ADDRESS:"].map
    String.toList

/-- Lines 305-308: the first matching AI-export marker is cut off the front
and the remainder stripped (the loop breaks at the first hit). -/
def stripAiTag (s : List Char) : List Char :=
  match aiExportTags.find? (fun p => leadsWith p s) with
  | some p => pyStrip (s.drop p.length)
  | none => s

/-- The `replacements` dict of `_clean_address_value` (lines 315-329). -/
def cleanReplacements : List (List Char × List Char) :=
  [(" N ", " North "), (" S ", " South "), (" E ", " East "), (" W ", " West "),
   (" St ", " Street "), (" Ave ", " Avenue "), (" Rd ", " Road "), (" Dr ", " Drive "),
   (" Blvd ", " Boulevard "), (" Ln ", " Lane "), (" Ct ", " Court "),
   (" Cir ", " Circle "), (" Pl ", " Place ")].map
    (fun p => (p.1.toList, p.2.toList))

/-- Lines 331-335: each abbreviation is replaced as written, lower-cased and
upper-cased, in that order. -/
def applyCaseReplacements (s : List Char) (p : List Char × List Char) : List Char :=
  pyReplace (pyReplace (pyReplace s p.1 p.2) (pyLower p.1) (pyLower p.2))
    (pyUpper p.1) (pyUpper p.2)

/-- `TraversaDataProcessor._clean_address_value` (lines 286-337): missing or
empty values clean to the empty string; otherwise strip, cut one AI-export
marker, collapse runs of whitespace, apply the abbreviation replacements and
strip again. -/
def _clean_address_value (v : Cell) : List Char :=
  match v with
  | none => []
  | some s =>
    if s = [] then []
    else
      pyStrip (cleanReplacements.foldl applyCaseReplacements
        (joinSpace (pySplit (stripAiTag (pyStrip s)))))

/-- The address-field keywords of line 446. -/
def addressKeywords : List (List Char) :=
  ["address", "street", "home", "residence", "location"].map String.toList

/-- The daycare-category keywords of line 473. -/
def daycareKeywords : List (List Char) :=
  ["daycare", "childcare", "preschool", "nursery", "care"].map String.toList

/-- One entry of `self.changes_detected` (lines 416-423 etc.). -/
structure FieldChange where
  student : List Char
  field : List Char
  category : List Char
  old_value : Cell
  new_value : Cell
  row_index : Nat
deriving DecidableEq

/-- One entry of `self.comparator.matches` as consumed by the reconciler:
its target row label and the source-side data (lines 386-394, 440-442). -/
structure RMatch where
  comparison_index : Nat
  ai_name : List Char
  comparison_name : List Char
  ai_data : List (List Char × Cell)
deriving DecidableEq

/-- `str(original_row.get(c, '')).strip()`-style read (lines 395-396): the
default `''` applies when the column is absent; a present-but-NaN cell
stringifies to `"nan"`. -/
def locGetStr (df : DataFrame) (i : Nat) (c : List Char) : List Char :=
  if c ∈ df.cols then pyStr (getCell df i c) else []

/-- `traversa_first` (line 395). -/
def travFirst (df : DataFrame) (i : Nat) : List Char := pyStrip (locGetStr df i firstNameCol)

/-- `traversa_last` (line 396). -/
def travLast (df : DataFrame) (i : Nat) : List Char := pyStrip (locGetStr df i lastNameCol)

/-- `traversa_combined = f"{traversa_first} {traversa_last}".strip()` (line 397). -/
def travCombined (df : DataFrame) (i : Nat) : List Char :=
  pyStrip (travFirst df i ++ [' '] ++ travLast df i)

/-- `ai_name_parts = ai_name.strip().split()` (line 403). -/
def nameParts (aiName : List Char) : List (List Char) := pySplit (pyStrip aiName)

/-- `new_first` (lines 404-412). -/
def newFirst (tf : List Char) (parts : List (List Char)) : List Char :=
  match parts with
  | [] => tf
  | w :: _ => w

/-- `new_last` (lines 404-412): everything after the first word, the existing
last name when the AI name has at most one word. -/
def newLast (tl : List Char) (parts : List (List Char)) : List Char :=
  match parts with
  | [] => tl
  | [_] => tl
  | _ :: rest => joinSpace rest

/-- Lines 414-436 (one name field): when the new value differs, log a
`student_name` change and write the cell. -/
def condUpdate (i : Nat) (col : List Char) (student oldv newv : List Char)
    (st : DataFrame × List FieldChange) : DataFrame × List FieldChange :=
  if newv ≠ oldv then
    (setCell st.1 i col (some newv),
     st.2 ++ [⟨student, col, "student_name".toList, some oldv, some newv, i⟩])
  else st

/-- The name-handling block (lines 393-436): when the AI name differs
case-insensitively from the combined Traversa name and is non-blank, split it
and update First Name then Last Name, logging each actual change. -/
def nameStep (i : Nat) (aiName : List Char) (st : DataFrame × List FieldChange) :
    DataFrame × List FieldChange :=
  if pyLower aiName ≠ pyLower (travCombined st.1 i) ∧ pyStrip aiName ≠ [] then
    condUpdate i lastNameCol (travCombined st.1 i) (travLast st.1 i)
      (newLast (travLast st.1 i) (nameParts aiName))
      (condUpdate i firstNameCol (travCombined st.1 i) (travFirst st.1 i)
        (newFirst (travFirst st.1 i) (nameParts aiName)) st)
  else st

/-- Line 473's category choice for non-address fields. -/
def fieldCategory (fieldLower : List Char) : List Char :=
  if daycareKeywords.any (fun kw => containsSub fieldLower kw) then "daycare".toList
  else "general".toList

/-- Lines 444-488, after the guards: address fields update to the cleaned new
value only when it is non-null, non-equivalent and non-empty; other fields
update whenever the stringified values differ; every write is logged. -/
def mappedFieldApply (i : Nat) (compName : List Char) (tf : List Char)
    (oldv newv : Cell) (st : DataFrame × List FieldChange) :
    DataFrame × List FieldChange :=
  if addressKeywords.any (fun kw => containsSub (pyLower tf) kw) then
    if newv.isSome ∧
        _addresses_are_equivalent (_clean_address_value oldv) (_clean_address_value newv)
          = false ∧
        _clean_address_value newv ≠ [] then
      (setCell st.1 i tf (some (_clean_address_value newv)),
       st.2 ++ [⟨compName, tf, "address".toList, oldv, some (_clean_address_value newv), i⟩])
    else st
  else
    if newv.isSome ∧ pyStr oldv ≠ pyStr newv then
      (setCell st.1 i tf newv,
       st.2 ++ [⟨compName, tf, fieldCategory (pyLower tf), oldv, newv, i⟩])
    else st

/-- One iteration of the field-mapping loop (lines 439-442): skip unless the
target column exists and the source field is present in the match data. -/
def mappedFieldStep (i : Nat) (compName : List Char) (aiData : List (List Char × Cell))
    (st : DataFrame × List FieldChange) (fm : List Char × List Char) :
    DataFrame × List FieldChange :=
  if fm.2 ∈ st.1.cols ∧ (aiData.lookup fm.1).isSome then
    mappedFieldApply i compName fm.2 (getCell st.1 i fm.2) ((aiData.lookup fm.1).getD none) st
  else st

/-- The field-mapping loop (lines 439-488). -/
def mappedFold (i : Nat) (compName : List Char) (aiData : List (List Char × Cell))
    (mappings : List (List Char × List Char)) (st : DataFrame × List FieldChange) :
    DataFrame × List FieldChange :=
  mappings.foldl (mappedFieldStep i compName aiData) st

/-- Lines 496-503 for one preserved column: when present and non-null in the
match data, create the column (filled with `''`) if absent and set the cell;
no change-log entry is written. -/
def preservedStep (i : Nat) (aiData : List (List Char × Cell)) (df : DataFrame)
    (p : List Char) : DataFrame :=
  match aiData.lookup p with
  | some (some s) =>
    setCell (if p ∈ df.cols then df else setColAll df p (some [])) i p (some s)
  | _ => df

/-- The preserved-columns loop (lines 490-503). -/
def preservedFold (i : Nat) (aiData : List (List Char × Cell))
    (st : DataFrame × List FieldChange) : DataFrame × List FieldChange :=
  (ai_columns_to_preserve.foldl (preservedStep i aiData) st.1, st.2)

/-- One iteration of the match loop (lines 386-503). -/
def processMatch (mappings : List (List Char × List Char))
    (st : DataFrame × List FieldChange) (m : RMatch) : DataFrame × List FieldChange :=
  preservedFold m.comparison_index m.ai_data
    (mappedFold m.comparison_index m.comparison_name m.ai_data mappings
      (nameStep m.comparison_index m.ai_name st))

/-- The whole match loop, threading the frame and the change log. -/
def reconLoop (mappings : List (List Char × List Char)) (matchList : List RMatch)
    (orig : DataFrame) : DataFrame × List FieldChange :=
  matchList.foldl (processMatch mappings) (orig, [])

/-- `traversa_data.loc[keep_indices]` (line 506): the rows selected by label,
in `keep_indices` order. -/
def keptFrame (df : DataFrame) (keep : List Nat) : DataFrame :=
  ⟨df.cols, keep.filterMap (findRow df)⟩

/-- Line 516: derive `Transportation_Category` for every row from the
transportation-needs column. -/
def addTransportCategory (df : DataFrame) : DataFrame :=
  ⟨if transportCategoryCol ∈ df.cols then df.cols else df.cols ++ [transportCategoryCol],
   df.rows.map (fun r =>
     ⟨r.label, setAssoc r.cells transportCategoryCol
       (some (_analyze_transportation_needs (getVal r transportNeedCol)))⟩)⟩

/-- `transport_order` (lines 521-527). -/
def transport_order : List (List Char × Nat) :=
  [("AM Only".toList, 1), ("PM Only".toList, 2), ("Both AM & PM".toList, 3),
   ("Other/Unclear".toList, 4), ("No Transportation".toList, 5)]

/-- The `_sort_key` of one row (line 530); an unmapped category becomes NaN,
which pandas sorts last, hence the default 6. -/
def rowSortKey (r : DataRow) : Nat :=
  match getVal r transportCategoryCol with
  | some c => (transport_order.lookup c).getD 6
  | none => 6

/-- Insert a row behind every already-placed row of smaller-or-equal key. -/
def insertByKey (r : DataRow) : List DataRow → List DataRow
  | [] => [r]
  | s :: t => if rowSortKey s ≤ rowSortKey r then s :: insertByKey r t else r :: s :: t

/-- `sort_values('_sort_key')` (line 533) as a deterministic sort on the
per-row key; the temporary `_sort_key` column is added at line 530 and
dropped at line 536, so its only observable effect is this reordering. -/
def sortRows (l : List DataRow) : List DataRow :=
  l.foldl (fun acc r => insertByKey r acc) []

/-- Lines 511-536: when the transportation-needs column exists, derive the
category column and sort the rows by it. -/
def finalizeTransport (df : DataFrame) : DataFrame :=
  if transportNeedCol ∈ df.cols then
    ⟨(addTransportCategory df).cols, sortRows (addTransportCategory df).rows⟩
  else df

/-- `TraversaDataProcessor._create_traversa_dataset` (lines 375-548): run the
match loop over the original comparison frame, keep only the matched rows,
finalize the transportation columns; returns the frame and the change log. -/
def _create_traversa_dataset (orig : DataFrame) (mappings : List (List Char × List Char))
    (matchList : List RMatch) : DataFrame × List FieldChange :=
  (finalizeTransport (keptFrame (reconLoop mappings matchList orig).1
      (matchList.map RMatch.comparison_index)),
   (reconLoop mappings matchList orig).2)

/-! ### Read/write lemmas for the DataFrame primitives. -/

theorem findRow_map_label (rows : List DataRow) (f : DataRow → DataRow)
    (hf : ∀ r, (f r).label = r.label) (i : Nat) :
    (rows.map f).find? (fun r => decide (r.label = i)) =
      (rows.find? (fun r => decide (r.label = i))).map f := by
  rw [List.find?_map]
  have hp : ((fun r : DataRow => decide (r.label = i)) ∘ f) =
      (fun r : DataRow => decide (r.label = i)) := by
    funext r
    simp [Function.comp, hf]
  rw [hp]

theorem setCell_label_aux (i : Nat) (c : List Char) (v : Cell) (r : DataRow) :
    ((if r.label = i then (⟨r.label, setAssoc r.cells c v⟩ : DataRow) else r)).label
      = r.label := by
  by_cases h : r.label = i
  · rw [if_pos h]
  · rw [if_neg h]

theorem getCell_setCell_self (df : DataFrame) (i : Nat) (c : List Char) (v : Cell) :
    getCell (setCell df i c v) i c = v := by
  simp only [getCell, findRow, setCell]
  by_cases hany : df.rows.any (fun r => decide (r.label = i)) = true
  · rw [if_pos hany, findRow_map_label _ _ (setCell_label_aux i c v) i]
    obtain ⟨r₀, hfind⟩ := Option.isSome_iff_exists.mp
      (List.find?_isSome.mpr (List.any_eq_true.mp hany))
    rw [hfind]
    have hl : r₀.label = i := by simpa using List.find?_some hfind
    simp only [Option.map_some', if_pos hl]
    exact getVal_setAssoc_self r₀.label r₀.cells c v
  · rw [if_neg hany, List.find?_append]
    have h1 : df.rows.find? (fun r => decide (r.label = i)) = none := by
      rw [List.find?_eq_none]
      intro x hx hpx
      exact hany (List.any_eq_true.mpr ⟨x, hx, hpx⟩)
    rw [h1, Option.none_or, List.find?_cons_of_pos _ (by simp)]
    exact getVal_setAssoc_self i [] c v

theorem getCell_setCell_ne (df : DataFrame) (i j : Nat) (c d : List Char) (v : Cell)
    (h : j ≠ i ∨ d ≠ c) :
    getCell (setCell df i c v) j d = getCell df j d := by
  simp only [getCell, findRow, setCell]
  by_cases hany : df.rows.any (fun r => decide (r.label = i)) = true
  · rw [if_pos hany, findRow_map_label _ _ (setCell_label_aux i c v) j]
    cases hf : df.rows.find? (fun r => decide (r.label = j)) with
    | none => rfl
    | some r₀ =>
      have hl : r₀.label = j := by simpa using List.find?_some hf
      simp only [Option.map_some']
      by_cases hri : r₀.label = i
      · have hdc : d ≠ c := by
          rcases h with h | h
          · exact absurd (hl.symm.trans hri) h
          · exact h
        rw [if_pos hri]
        exact getVal_setAssoc_other r₀.label r₀.cells c d v hdc
      · rw [if_neg hri]
  · rw [if_neg hany, List.find?_append]
    cases hf : df.rows.find? (fun r => decide (r.label = j)) with
    | some r₀ => rw [Option.or_some]
    | none =>
      rw [Option.none_or]
      by_cases hij : i = j
      · have hdc : d ≠ c := by
          rcases h with h | h
          · exact absurd hij.symm h
          · exact h
        rw [List.find?_cons_of_pos _ (by simpa : _)]
        · exact getVal_setAssoc_other i [] c d v hdc
      · rw [List.find?_cons_of_neg _ (by simp [hij]), List.find?_nil]

theorem getCell_setColAll_ne (df : DataFrame) (c d : List Char) (v : Cell) (j : Nat)
    (h : d ≠ c) :
    getCell (setColAll df c v) j d = getCell df j d := by
  simp only [getCell, findRow, setColAll]
  rw [findRow_map_label df.rows
    (fun r => (⟨r.label, setAssoc r.cells c v⟩ : DataRow)) (fun r => rfl) j]
  cases hf : df.rows.find? (fun r => decide (r.label = j)) with
  | none => rfl
  | some r₀ =>
    simp only [Option.map_some']
    exact getVal_setAssoc_other r₀.label r₀.cells c d v h

theorem cols_setCell_mono (df : DataFrame) (i : Nat) (c : List Char) (v : Cell) :
    df.cols ⊆ (setCell df i c v).cols := by
  simp only [setCell]
  by_cases h : c ∈ df.cols
  · rw [if_pos h]
    exact List.Subset.refl _
  · rw [if_neg h]
    exact List.subset_append_left _ _

theorem cols_setCell_self (df : DataFrame) (i : Nat) (c : List Char) (v : Cell) :
    c ∈ (setCell df i c v).cols := by
  simp only [setCell]
  by_cases h : c ∈ df.cols
  · rw [if_pos h]; exact h
  · rw [if_neg h]
    exact List.mem_append_right _ (List.mem_singleton_self c)

theorem cols_setColAll_mono (df : DataFrame) (c : List Char) (v : Cell) :
    df.cols ⊆ (setColAll df c v).cols := by
  simp only [setColAll]
  by_cases h : c ∈ df.cols
  · rw [if_pos h]
    exact List.Subset.refl _
  · rw [if_neg h]
    exact List.subset_append_left _ _

/-! ### The frame invariant of claim C3. -/

/-- Cell accounting for one row and column: the cell still holds the original
roster's value, or it is the `new_value` of a change-log entry for this row
and field. -/
def CellOk (orig : DataFrame) (changes : List FieldChange) (r : DataRow)
    (c : List Char) : Prop :=
  getVal r c = getCell orig r.label c ∨
  ∃ e ∈ changes, e.row_index = r.label ∧ e.field = c ∧ getVal r c = e.new_value

/-- Every label of the original frame still labels a row. -/
def LabelsKept (orig df : DataFrame) : Prop :=
  ∀ i, findRow orig i ≠ none → findRow df i ≠ none

/-- The match-loop invariant: labels survive, and every cell outside the two
preserved columns is accounted for by `CellOk`. -/
def FrameInv (orig df : DataFrame) (changes : List FieldChange) : Prop :=
  LabelsKept orig df ∧
  ∀ r ∈ df.rows, ∀ c, c ∉ ai_columns_to_preserve → CellOk orig changes r c

theorem CellOk_mono (orig : DataFrame) (ch l : List FieldChange) (r : DataRow)
    (c : List Char) (h : CellOk orig ch r c) : CellOk orig (ch ++ l) r c := by
  rcases h with h | ⟨e, he, h1, h2, h3⟩
  · exact Or.inl h
  · exact Or.inr ⟨e, List.mem_append_left _ he, h1, h2, h3⟩

theorem CellOk_transfer (orig : DataFrame) (ch : List FieldChange) (r r₀ : DataRow)
    (c : List Char) (hlab : r.label = r₀.label) (hgv : getVal r c = getVal r₀ c)
    (h : CellOk orig ch r₀ c) : CellOk orig ch r c := by
  rcases h with h | ⟨e, he, h1, h2, h3⟩
  · exact Or.inl (by rw [hgv, hlab]; exact h)
  · exact Or.inr ⟨e, he, by rw [hlab]; exact h1, h2, by rw [hgv]; exact h3⟩

theorem findRow_setCell_kept (df : DataFrame) (i : Nat) (c : List Char) (v : Cell)
    (j : Nat) (h : findRow df j ≠ none) : findRow (setCell df i c v) j ≠ none := by
  simp only [findRow, setCell] at h ⊢
  by_cases hany : df.rows.any (fun r => decide (r.label = i)) = true
  · rw [if_pos hany, findRow_map_label _ _ (setCell_label_aux i c v) j]
    intro hx
    exact h (Option.map_eq_none'.mp hx)
  · rw [if_neg hany, List.find?_append]
    cases hf : df.rows.find? (fun r => decide (r.label = j)) with
    | none => exact absurd hf h
    | some r₀ => rw [Option.or_some]; exact Option.some_ne_none r₀

theorem findRow_setColAll_kept (df : DataFrame) (c : List Char) (v : Cell)
    (j : Nat) (h : findRow df j ≠ none) : findRow (setColAll df c v) j ≠ none := by
  simp only [findRow, setColAll] at h ⊢
  rw [findRow_map_label df.rows
    (fun r => (⟨r.label, setAssoc r.cells c v⟩ : DataRow)) (fun r => rfl) j]
  intro hx
  exact h (Option.map_eq_none'.mp hx)

theorem FrameInv_setCell_log (orig df : DataFrame) (ch : List FieldChange)
    (h : FrameInv orig df ch) (e : FieldChange) :
    FrameInv orig (setCell df e.row_index e.field e.new_value) (ch ++ [e]) := by
  obtain ⟨hk, hcell⟩ := h
  refine ⟨fun j hj => findRow_setCell_kept df _ _ _ j (hk j hj), ?_⟩
  intro r hr c hc
  simp only [setCell] at hr
  by_cases hany : df.rows.any (fun r => decide (r.label = e.row_index)) = true
  · rw [if_pos hany] at hr
    obtain ⟨r₀, hr₀, hfr⟩ := List.mem_map.mp hr
    by_cases hl : r₀.label = e.row_index
    · rw [if_pos hl] at hfr
      by_cases hcf : c = e.field
      · right
        refine ⟨e, List.mem_append_right _ (List.mem_singleton_self e), ?_, hcf.symm, ?_⟩
        · rw [← hfr]
          exact hl.symm
        · rw [← hfr, hcf]
          exact getVal_setAssoc_self _ _ _ _
      · have hgv : getVal r c = getVal r₀ c := by
          rw [← hfr]
          exact getVal_setAssoc_other r₀.label r₀.cells e.field c e.new_value hcf
        have hlab : r.label = r₀.label := by rw [← hfr]
        exact CellOk_transfer orig _ r r₀ c hlab hgv
          (CellOk_mono orig ch [e] r₀ c (hcell r₀ hr₀ c hc))
    · rw [if_neg hl] at hfr
      rw [← hfr]
      exact CellOk_mono orig ch [e] r₀ c (hcell r₀ hr₀ c hc)
  · rw [if_neg hany] at hr
    rcases List.mem_append.mp hr with hr | hr
    · exact CellOk_mono orig ch [e] r c (hcell r hr c hc)
    · have hfr : r = ⟨e.row_index, [(e.field, e.new_value)]⟩ := List.mem_singleton.mp hr
      by_cases hcf : c = e.field
      · right
        refine ⟨e, List.mem_append_right _ (List.mem_singleton_self e), ?_, hcf.symm, ?_⟩
        · rw [hfr]
        · rw [hfr, hcf]
          exact getVal_setAssoc_self e.row_index [] e.field e.new_value
      · left
        have h1 : getVal r c = none := by
          rw [hfr]
          simp only [getVal]
          rw [lookup_cons_false e.field c e.new_value []
            (by rw [beq_eq_false_iff_ne]; exact hcf)]
          rfl
        have h2 : findRow df e.row_index = none := by
          unfold findRow
          rw [List.find?_eq_none]
          intro x hx hpx
          exact hany (List.any_eq_true.mpr ⟨x, hx, hpx⟩)
        have h3 : findRow orig e.row_index = none := by
          by_contra hne
          exact (hk _ hne) h2
        rw [h1, hfr]
        simp only [getCell]
        rw [h3]

theorem FrameInv_setCell_nolog (orig df : DataFrame) (ch : List FieldChange)
    (h : FrameInv orig df ch) (i : Nat) (c : List Char) (v : Cell)
    (hcp : c ∈ ai_columns_to_preserve) :
    FrameInv orig (setCell df i c v) ch := by
  obtain ⟨hk, hcell⟩ := h
  refine ⟨fun j hj => findRow_setCell_kept df _ _ _ j (hk j hj), ?_⟩
  intro r hr d hd
  have hdc : d ≠ c := fun hx => hd (hx ▸ hcp)
  simp only [setCell] at hr
  by_cases hany : df.rows.any (fun r => decide (r.label = i)) = true
  · rw [if_pos hany] at hr
    obtain ⟨r₀, hr₀, hfr⟩ := List.mem_map.mp hr
    by_cases hl : r₀.label = i
    · rw [if_pos hl] at hfr
      have hgv : getVal r d = getVal r₀ d := by
        rw [← hfr]
        exact getVal_setAssoc_other r₀.label r₀.cells c d v hdc
      have hlab : r.label = r₀.label := by rw [← hfr]
      exact CellOk_transfer orig ch r r₀ d hlab hgv (hcell r₀ hr₀ d hd)
    · rw [if_neg hl] at hfr
      rw [← hfr]
      exact hcell r₀ hr₀ d hd
  · rw [if_neg hany] at hr
    rcases List.mem_append.mp hr with hr | hr
    · exact hcell r hr d hd
    · have hfr : r = ⟨i, [(c, v)]⟩ := List.mem_singleton.mp hr
      left
      have h1 : getVal r d = none := by
        rw [hfr]
        simp only [getVal]
        rw [lookup_cons_false c d v [] (by rw [beq_eq_false_iff_ne]; exact hdc)]
        rfl
      have h2 : findRow df i = none := by
        unfold findRow
        rw [List.find?_eq_none]
        intro x hx hpx
        exact hany (List.any_eq_true.mpr ⟨x, hx, hpx⟩)
      have h3 : findRow orig i = none := by
        by_contra hne
        exact (hk _ hne) h2
      rw [h1, hfr]
      simp only [getCell]
      rw [h3]

theorem FrameInv_setColAll_nolog (orig df : DataFrame) (ch : List FieldChange)
    (h : FrameInv orig df ch) (c : List Char) (v : Cell)
    (hcp : c ∈ ai_columns_to_preserve) :
    FrameInv orig (setColAll df c v) ch := by
  obtain ⟨hk, hcell⟩ := h
  refine ⟨fun j hj => findRow_setColAll_kept df _ _ j (hk j hj), ?_⟩
  intro r hr d hd
  have hdc : d ≠ c := fun hx => hd (hx ▸ hcp)
  simp only [setColAll] at hr
  obtain ⟨r₀, hr₀, hfr⟩ := List.mem_map.mp hr
  have hgv : getVal r d = getVal r₀ d := by
    rw [← hfr]
    exact getVal_setAssoc_other r₀.label r₀.cells c d v hdc
  have hlab : r.label = r₀.label := by rw [← hfr]
  exact CellOk_transfer orig ch r r₀ d hlab hgv (hcell r₀ hr₀ d hd)

theorem find?_label_self_of_nodup (rows : List DataRow)
    (hnd : (rows.map DataRow.label).Nodup) (r : DataRow) (hr : r ∈ rows) :
    rows.find? (fun x => decide (x.label = r.label)) = some r := by
  induction rows with
  | nil => cases hr
  | cons a t ih =>
    rw [List.map_cons, List.nodup_cons] at hnd
    rcases List.mem_cons.mp hr with hr | hr
    · rw [hr, List.find?_cons_of_pos _ (by simp)]
    · have hne : ¬(a.label = r.label) :=
        fun hx => hnd.1 (hx ▸ List.mem_map_of_mem DataRow.label hr)
      rw [List.find?_cons_of_neg _ (by simpa using hne)]
      exact ih hnd.2 hr

theorem FrameInv_start (orig : DataFrame)
    (hnd : (orig.rows.map DataRow.label).Nodup) : FrameInv orig orig [] := by
  refine ⟨fun j hj => hj, ?_⟩
  intro r hr c _
  left
  simp only [getCell, findRow]
  rw [find?_label_self_of_nodup orig.rows hnd r hr]

theorem FrameInv_condUpdate (orig : DataFrame) (st : DataFrame × List FieldChange)
    (h : FrameInv orig st.1 st.2) (i : Nat) (col : List Char) (stu ov nv : List Char) :
    FrameInv orig (condUpdate i col stu ov nv st).1 (condUpdate i col stu ov nv st).2 := by
  unfold condUpdate
  by_cases hne : nv ≠ ov
  · rw [if_pos hne]
    exact FrameInv_setCell_log orig st.1 st.2 h
      ⟨stu, col, "student_name".toList, some ov, some nv, i⟩
  · rw [if_neg hne]
    exact h

theorem FrameInv_nameStep (orig : DataFrame) (st : DataFrame × List FieldChange)
    (h : FrameInv orig st.1 st.2) (i : Nat) (aiName : List Char) :
    FrameInv orig (nameStep i aiName st).1 (nameStep i aiName st).2 := by
  unfold nameStep
  by_cases hc : pyLower aiName ≠ pyLower (travCombined st.1 i) ∧ pyStrip aiName ≠ []
  · rw [if_pos hc]
    exact FrameInv_condUpdate orig _
      (FrameInv_condUpdate orig st h i firstNameCol _ _ _) i lastNameCol _ _ _
  · rw [if_neg hc]
    exact h

theorem FrameInv_mappedFieldApply (orig : DataFrame) (st : DataFrame × List FieldChange)
    (h : FrameInv orig st.1 st.2) (i : Nat) (compName tf : List Char) (ov nv : Cell) :
    FrameInv orig (mappedFieldApply i compName tf ov nv st).1
      (mappedFieldApply i compName tf ov nv st).2 := by
  unfold mappedFieldApply
  by_cases h1 : addressKeywords.any (fun kw => containsSub (pyLower tf) kw) = true
  · rw [if_pos h1]
    by_cases h2 : (nv.isSome : Prop) ∧
        _addresses_are_equivalent (_clean_address_value ov) (_clean_address_value nv)
          = false ∧
        _clean_address_value nv ≠ []
    · rw [if_pos h2]
      exact FrameInv_setCell_log orig st.1 st.2 h
        ⟨compName, tf, "address".toList, ov, some (_clean_address_value nv), i⟩
    · rw [if_neg h2]
      exact h
  · rw [if_neg h1]
    by_cases h2 : (nv.isSome : Prop) ∧ pyStr ov ≠ pyStr nv
    · rw [if_pos h2]
      exact FrameInv_setCell_log orig st.1 st.2 h
        ⟨compName, tf, fieldCategory (pyLower tf), ov, nv, i⟩
    · rw [if_neg h2]
      exact h

theorem FrameInv_mappedFieldStep (orig : DataFrame) (st : DataFrame × List FieldChange)
    (h : FrameInv orig st.1 st.2) (i : Nat) (compName : List Char)
    (aiData : List (List Char × Cell)) (fm : List Char × List Char) :
    FrameInv orig (mappedFieldStep i compName aiData st fm).1
      (mappedFieldStep i compName aiData st fm).2 := by
  unfold mappedFieldStep
  by_cases hg : fm.2 ∈ st.1.cols ∧ ((aiData.lookup fm.1).isSome : Prop)
  · rw [if_pos hg]
    exact FrameInv_mappedFieldApply orig st h i compName fm.2 _ _
  · rw [if_neg hg]
    exact h

theorem FrameInv_mappedFold (orig : DataFrame) (i : Nat) (compName : List Char)
    (aiData : List (List Char × Cell)) (mappings : List (List Char × List Char)) :
    ∀ st : DataFrame × List FieldChange, FrameInv orig st.1 st.2 →
      FrameInv orig (mappedFold i compName aiData mappings st).1
        (mappedFold i compName aiData mappings st).2 := by
  induction mappings with
  | nil =>
    intro st h
    exact h
  | cons fm t ih =>
    intro st h
    simp only [mappedFold, List.foldl_cons]
    exact ih _ (FrameInv_mappedFieldStep orig st h i compName aiData fm)

theorem FrameInv_preservedStep (orig df : DataFrame) (ch : List FieldChange)
    (h : FrameInv orig df ch) (i : Nat) (aiData : List (List Char × Cell))
    (p : List Char) (hp : p ∈ ai_columns_to_preserve) :
    FrameInv orig (preservedStep i aiData df p) ch := by
  unfold preservedStep
  cases hq : aiData.lookup p with
  | none => exact h
  | some v =>
    cases v with
    | none => exact h
    | some s =>
      by_cases hcols : p ∈ df.cols
      · rw [if_pos hcols]
        exact FrameInv_setCell_nolog orig df ch h i p (some s) hp
      · rw [if_neg hcols]
        exact FrameInv_setCell_nolog orig _ ch
          (FrameInv_setColAll_nolog orig df ch h p (some []) hp) i p (some s) hp

theorem FrameInv_preservedFoldAux (orig : DataFrame) (i : Nat)
    (aiData : List (List Char × Cell)) :
    ∀ l : List (List Char), (∀ p ∈ l, p ∈ ai_columns_to_preserve) →
    ∀ df ch, FrameInv orig df ch →
      FrameInv orig (l.foldl (preservedStep i aiData) df) ch := by
  intro l
  induction l with
  | nil =>
    intro _ df ch h
    exact h
  | cons p t ih =>
    intro hl df ch h
    rw [List.foldl_cons]
    exact ih (fun q hq => hl q (List.mem_cons_of_mem p hq)) _ ch
      (FrameInv_preservedStep orig df ch h i aiData p (hl p (List.mem_cons_self p t)))

theorem FrameInv_preservedFold (orig : DataFrame) (st : DataFrame × List FieldChange)
    (h : FrameInv orig st.1 st.2) (i : Nat) (aiData : List (List Char × Cell)) :
    FrameInv orig (preservedFold i aiData st).1 (preservedFold i aiData st).2 := by
  unfold preservedFold
  exact FrameInv_preservedFoldAux orig i aiData ai_columns_to_preserve
    (fun p hp => hp) st.1 st.2 h

theorem FrameInv_processMatch (orig : DataFrame) (mappings : List (List Char × List Char))
    (st : DataFrame × List FieldChange) (h : FrameInv orig st.1 st.2) (m : RMatch) :
    FrameInv orig (processMatch mappings st m).1 (processMatch mappings st m).2 := by
  unfold processMatch
  exact FrameInv_preservedFold orig _
    (FrameInv_mappedFold orig _ _ _ mappings _ (FrameInv_nameStep orig st h _ _)) _ _

theorem FrameInv_loopAux (orig : DataFrame) (mappings : List (List Char × List Char)) :
    ∀ (ms : List RMatch) (st : DataFrame × List FieldChange), FrameInv orig st.1 st.2 →
      FrameInv orig (ms.foldl (processMatch mappings) st).1
        (ms.foldl (processMatch mappings) st).2 := by
  intro ms
  induction ms with
  | nil =>
    intro st h
    exact h
  | cons m t ih =>
    intro st h
    rw [List.foldl_cons]
    exact ih _ (FrameInv_processMatch orig mappings st h m)

theorem FrameInv_reconLoop (orig : DataFrame) (mappings : List (List Char × List Char))
    (matchList : List RMatch) (hnd : (orig.rows.map DataRow.label).Nodup) :
    FrameInv orig (reconLoop mappings matchList orig).1
      (reconLoop mappings matchList orig).2 := by
  unfold reconLoop
  exact FrameInv_loopAux orig mappings matchList (orig, []) (FrameInv_start orig hnd)

/-! Row correspondence through the keep filter and the transport finalization. -/

theorem mem_keptFrame (df : DataFrame) (keep : List Nat) (r : DataRow)
    (hr : r ∈ (keptFrame df keep).rows) : r ∈ df.rows := by
  simp only [keptFrame] at hr
  obtain ⟨i, _, hf⟩ := List.mem_filterMap.mp hr
  exact List.mem_of_find?_eq_some hf

theorem mem_insertByKey (r x : DataRow) (l : List DataRow) :
    x ∈ insertByKey r l ↔ x = r ∨ x ∈ l := by
  induction l with
  | nil => simp [insertByKey]
  | cons s t ih =>
    simp only [insertByKey]
    by_cases hk : rowSortKey s ≤ rowSortKey r
    · rw [if_pos hk]
      simp only [List.mem_cons, ih]
      tauto
    · rw [if_neg hk]
      simp only [List.mem_cons]

theorem mem_sortRows_aux : ∀ (l acc : List DataRow) (x : DataRow),
    x ∈ l.foldl (fun acc r => insertByKey r acc) acc ↔ x ∈ acc ∨ x ∈ l := by
  intro l
  induction l with
  | nil =>
    intro acc x
    simp
  | cons r t ih =>
    intro acc x
    rw [List.foldl_cons, ih, mem_insertByKey]
    simp only [List.mem_cons]
    tauto

theorem mem_sortRows (l : List DataRow) (x : DataRow) : x ∈ sortRows l ↔ x ∈ l := by
  unfold sortRows
  rw [mem_sortRows_aux]
  simp

theorem mem_addTransportCategory (df : DataFrame) (r : DataRow)
    (hr : r ∈ (addTransportCategory df).rows) :
    ∃ r₀ ∈ df.rows, r.label = r₀.label ∧
      ∀ c, c ≠ transportCategoryCol → getVal r c = getVal r₀ c := by
  simp only [addTransportCategory] at hr
  obtain ⟨r₀, hr₀, hfr⟩ := List.mem_map.mp hr
  refine ⟨r₀, hr₀, by rw [← hfr], ?_⟩
  intro c hc
  rw [← hfr]
  exact getVal_setAssoc_other r₀.label r₀.cells transportCategoryCol c _ hc

theorem addTransportCategory_mem_of (df : DataFrame) (r₀ : DataRow)
    (hr₀ : r₀ ∈ df.rows) :
    ∃ r ∈ (addTransportCategory df).rows, r.label = r₀.label ∧
      ∀ c, c ≠ transportCategoryCol → getVal r c = getVal r₀ c := by
  refine ⟨⟨r₀.label, setAssoc r₀.cells transportCategoryCol
    (some (_analyze_transportation_needs (getVal r₀ transportNeedCol)))⟩, ?_, rfl, ?_⟩
  · simp only [addTransportCategory]
    exact List.mem_map_of_mem _ hr₀
  · intro c hc
    exact getVal_setAssoc_other r₀.label r₀.cells transportCategoryCol c _ hc

theorem mem_finalizeTransport (df : DataFrame) (r : DataRow)
    (hr : r ∈ (finalizeTransport df).rows) :
    ∃ r₀ ∈ df.rows, r.label = r₀.label ∧
      ∀ c, c ≠ transportCategoryCol → getVal r c = getVal r₀ c := by
  unfold finalizeTransport at hr
  by_cases hcol : transportNeedCol ∈ df.cols
  · rw [if_pos hcol] at hr
    exact mem_addTransportCategory df r ((mem_sortRows _ r).mp hr)
  · rw [if_neg hcol] at hr
    exact ⟨r, hr, rfl, fun c _ => rfl⟩

theorem finalizeTransport_mem_of (df : DataFrame) (r₀ : DataRow) (hr₀ : r₀ ∈ df.rows) :
    ∃ r ∈ (finalizeTransport df).rows, r.label = r₀.label ∧
      ∀ c, c ≠ transportCategoryCol → getVal r c = getVal r₀ c := by
  unfold finalizeTransport
  by_cases hcol : transportNeedCol ∈ df.cols
  · rw [if_pos hcol]
    obtain ⟨r, hmem, hlab, hval⟩ := addTransportCategory_mem_of df r₀ hr₀
    exact ⟨r, (mem_sortRows _ r).mpr hmem, hlab, hval⟩
  · rw [if_neg hcol]
    exact ⟨r₀, hr₀, rfl, fun c _ => rfl⟩

/-! ### Which fields the change log can mention. -/

/-- Every change-log entry is for First Name, Last Name or a mapping target. -/
def ChangeFieldsOk (mappings : List (List Char × List Char))
    (changes : List FieldChange) : Prop :=
  ∀ e ∈ changes, e.field = firstNameCol ∨ e.field = lastNameCol ∨
    e.field ∈ mappings.map Prod.snd

theorem ChangeFieldsOk_append (mappings : List (List Char × List Char))
    (ch l : List FieldChange) (h : ChangeFieldsOk mappings ch)
    (hl : ∀ e ∈ l, e.field = firstNameCol ∨ e.field = lastNameCol ∨
      e.field ∈ mappings.map Prod.snd) :
    ChangeFieldsOk mappings (ch ++ l) := by
  intro e he
  rcases List.mem_append.mp he with he | he
  · exact h e he
  · exact hl e he

theorem ChangeFieldsOk_condUpdate (mappings : List (List Char × List Char))
    (st : DataFrame × List FieldChange) (h : ChangeFieldsOk mappings st.2)
    (i : Nat) (stu ov nv : List Char) (col : List Char)
    (hcol : col = firstNameCol ∨ col = lastNameCol ∨ col ∈ mappings.map Prod.snd) :
    ChangeFieldsOk mappings (condUpdate i col stu ov nv st).2 := by
  unfold condUpdate
  by_cases hne : nv ≠ ov
  · rw [if_pos hne]
    exact ChangeFieldsOk_append mappings st.2 _ h
      (fun e he => by rw [List.mem_singleton.mp he]; exact hcol)
  · rw [if_neg hne]
    exact h

theorem ChangeFieldsOk_nameStep (mappings : List (List Char × List Char))
    (st : DataFrame × List FieldChange) (h : ChangeFieldsOk mappings st.2)
    (i : Nat) (aiName : List Char) :
    ChangeFieldsOk mappings (nameStep i aiName st).2 := by
  unfold nameStep
  by_cases hc : pyLower aiName ≠ pyLower (travCombined st.1 i) ∧ pyStrip aiName ≠ []
  · rw [if_pos hc]
    exact ChangeFieldsOk_condUpdate mappings _
      (ChangeFieldsOk_condUpdate mappings st h i _ _ _ _ (Or.inl rfl)) i _ _ _ _
      (Or.inr (Or.inl rfl))
  · rw [if_neg hc]
    exact h

theorem ChangeFieldsOk_mappedFieldApply (mappings : List (List Char × List Char))
    (st : DataFrame × List FieldChange) (h : ChangeFieldsOk mappings st.2)
    (i : Nat) (compName tf : List Char) (ov nv : Cell)
    (htf : tf ∈ mappings.map Prod.snd) :
    ChangeFieldsOk mappings (mappedFieldApply i compName tf ov nv st).2 := by
  unfold mappedFieldApply
  by_cases h1 : addressKeywords.any (fun kw => containsSub (pyLower tf) kw) = true
  · rw [if_pos h1]
    by_cases h2 : (nv.isSome : Prop) ∧
        _addresses_are_equivalent (_clean_address_value ov) (_clean_address_value nv)
          = false ∧
        _clean_address_value nv ≠ []
    · rw [if_pos h2]
      exact ChangeFieldsOk_append mappings st.2 _ h
        (fun e he => by rw [List.mem_singleton.mp he]; exact Or.inr (Or.inr htf))
    · rw [if_neg h2]
      exact h
  · rw [if_neg h1]
    by_cases h2 : (nv.isSome : Prop) ∧ pyStr ov ≠ pyStr nv
    · rw [if_pos h2]
      exact ChangeFieldsOk_append mappings st.2 _ h
        (fun e he => by rw [List.mem_singleton.mp he]; exact Or.inr (Or.inr htf))
    · rw [if_neg h2]
      exact h

theorem ChangeFieldsOk_mappedFieldStep (mappings : List (List Char × List Char))
    (st : DataFrame × List FieldChange) (h : ChangeFieldsOk mappings st.2)
    (i : Nat) (compName : List Char) (aiData : List (List Char × Cell))
    (fm : List Char × List Char) (hfm : fm.2 ∈ mappings.map Prod.snd) :
    ChangeFieldsOk mappings (mappedFieldStep i compName aiData st fm).2 := by
  unfold mappedFieldStep
  by_cases hg : fm.2 ∈ st.1.cols ∧ ((aiData.lookup fm.1).isSome : Prop)
  · rw [if_pos hg]
    exact ChangeFieldsOk_mappedFieldApply mappings st h i compName fm.2 _ _ hfm
  · rw [if_neg hg]
    exact h

theorem ChangeFieldsOk_mappedFoldAux (mappings : List (List Char × List Char))
    (i : Nat) (compName : List Char) (aiData : List (List Char × Cell)) :
    ∀ l : List (List Char × List Char), (∀ fm ∈ l, fm.2 ∈ mappings.map Prod.snd) →
    ∀ st : DataFrame × List FieldChange, ChangeFieldsOk mappings st.2 →
      ChangeFieldsOk mappings (l.foldl (mappedFieldStep i compName aiData) st).2 := by
  intro l
  induction l with
  | nil =>
    intro _ st h
    exact h
  | cons fm t ih =>
    intro hl st h
    rw [List.foldl_cons]
    exact ih (fun q hq => hl q (List.mem_cons_of_mem fm hq)) _
      (ChangeFieldsOk_mappedFieldStep mappings st h i compName aiData fm
        (hl fm (List.mem_cons_self fm t)))

theorem ChangeFieldsOk_processMatch (mappings : List (List Char × List Char))
    (st : DataFrame × List FieldChange) (h : ChangeFieldsOk mappings st.2) (m : RMatch) :
    ChangeFieldsOk mappings (processMatch mappings st m).2 := by
  unfold processMatch preservedFold mappedFold
  exact ChangeFieldsOk_mappedFoldAux mappings m.comparison_index m.comparison_name
    m.ai_data mappings (fun fm hfm => List.mem_map_of_mem Prod.snd hfm) _
    (ChangeFieldsOk_nameStep mappings st h m.comparison_index m.ai_name)

theorem ChangeFieldsOk_reconLoop (orig : DataFrame)
    (mappings : List (List Char × List Char)) (matchList : List RMatch) :
    ChangeFieldsOk mappings (reconLoop mappings matchList orig).2 := by
  unfold reconLoop
  have haux : ∀ (ms : List RMatch) (st : DataFrame × List FieldChange),
      ChangeFieldsOk mappings st.2 →
      ChangeFieldsOk mappings (ms.foldl (processMatch mappings) st).2 := by
    intro ms
    induction ms with
    | nil =>
      intro st h
      exact h
    | cons m t ih =>
      intro st h
      rw [List.foldl_cons]
      exact ih _ (ChangeFieldsOk_processMatch mappings st h m)
  exact haux matchList (orig, []) (fun e he => absurd he (List.not_mem_nil e))

/-! ### Persistence of the preserved-column copies. -/

/-- Cell `(i, p)` holds `s` and column `p` exists. -/
def PCellSet (df : DataFrame) (i : Nat) (p : List Char) (s : List Char) : Prop :=
  getCell df i p = some s ∧ p ∈ df.cols

theorem PCellSet_setCell (df : DataFrame) (i : Nat) (p s : List Char) (j : Nat)
    (c : List Char) (v : Cell) (h : PCellSet df i p s) (hne : j ≠ i ∨ c ≠ p) :
    PCellSet (setCell df j c v) i p s := by
  refine ⟨?_, cols_setCell_mono df j c v h.2⟩
  rw [getCell_setCell_ne df j i c p v (hne.imp Ne.symm Ne.symm)]
  exact h.1

theorem PCellSet_setColAll (df : DataFrame) (i : Nat) (p s : List Char)
    (c : List Char) (v : Cell) (h : PCellSet df i p s) (hne : c ≠ p) :
    PCellSet (setColAll df c v) i p s := by
  refine ⟨?_, cols_setColAll_mono df c v h.2⟩
  rw [getCell_setColAll_ne df c p v i hne.symm]
  exact h.1

theorem PCellSet_condUpdate (st : DataFrame × List FieldChange) (i : Nat)
    (p s : List Char) (h : PCellSet st.1 i p s) (j : Nat) (hne : j ≠ i)
    (col stu ov nv : List Char) :
    PCellSet (condUpdate j col stu ov nv st).1 i p s := by
  unfold condUpdate
  by_cases hd : nv ≠ ov
  · rw [if_pos hd]
    exact PCellSet_setCell st.1 i p s j col (some nv) h (Or.inl hne)
  · rw [if_neg hd]
    exact h

theorem PCellSet_nameStep (st : DataFrame × List FieldChange) (i : Nat)
    (p s : List Char) (h : PCellSet st.1 i p s) (j : Nat) (hne : j ≠ i)
    (aiName : List Char) :
    PCellSet (nameStep j aiName st).1 i p s := by
  unfold nameStep
  by_cases hc : pyLower aiName ≠ pyLower (travCombined st.1 j) ∧ pyStrip aiName ≠ []
  · rw [if_pos hc]
    exact PCellSet_condUpdate _ i p s
      (PCellSet_condUpdate st i p s h j hne firstNameCol _ _ _) j hne lastNameCol _ _ _
  · rw [if_neg hc]
    exact h

theorem PCellSet_mappedFieldApply (st : DataFrame × List FieldChange) (i : Nat)
    (p s : List Char) (h : PCellSet st.1 i p s) (j : Nat) (hne : j ≠ i)
    (compName tf : List Char) (ov nv : Cell) :
    PCellSet (mappedFieldApply j compName tf ov nv st).1 i p s := by
  unfold mappedFieldApply
  by_cases h1 : addressKeywords.any (fun kw => containsSub (pyLower tf) kw) = true
  · rw [if_pos h1]
    by_cases h2 : (nv.isSome : Prop) ∧
        _addresses_are_equivalent (_clean_address_value ov) (_clean_address_value nv)
          = false ∧
        _clean_address_value nv ≠ []
    · rw [if_pos h2]
      exact PCellSet_setCell st.1 i p s j tf _ h (Or.inl hne)
    · rw [if_neg h2]
      exact h
  · rw [if_neg h1]
    by_cases h2 : (nv.isSome : Prop) ∧ pyStr ov ≠ pyStr nv
    · rw [if_pos h2]
      exact PCellSet_setCell st.1 i p s j tf nv h (Or.inl hne)
    · rw [if_neg h2]
      exact h

theorem PCellSet_mappedFieldStep (st : DataFrame × List FieldChange) (i : Nat)
    (p s : List Char) (h : PCellSet st.1 i p s) (j : Nat) (hne : j ≠ i)
    (compName : List Char) (aiData : List (List Char × Cell))
    (fm : List Char × List Char) :
    PCellSet (mappedFieldStep j compName aiData st fm).1 i p s := by
  unfold mappedFieldStep
  by_cases hg : fm.2 ∈ st.1.cols ∧ ((aiData.lookup fm.1).isSome : Prop)
  · rw [if_pos hg]
    exact PCellSet_mappedFieldApply st i p s h j hne compName fm.2 _ _
  · rw [if_neg hg]
    exact h

theorem PCellSet_mappedFoldAux (i : Nat) (p s : List Char) (j : Nat) (hne : j ≠ i)
    (compName : List Char) (aiData : List (List Char × Cell)) :
    ∀ (l : List (List Char × List Char)) (st : DataFrame × List FieldChange),
      PCellSet st.1 i p s →
      PCellSet ((l.foldl (mappedFieldStep j compName aiData) st)).1 i p s := by
  intro l
  induction l with
  | nil =>
    intro st h
    exact h
  | cons fm t ih =>
    intro st h
    rw [List.foldl_cons]
    exact ih _ (PCellSet_mappedFieldStep st i p s h j hne compName aiData fm)

theorem PCellSet_preservedStep (df : DataFrame) (i : Nat) (p s : List Char) (j : Nat)
    (aiData : List (List Char × Cell)) (q : List Char) (h : PCellSet df i p s)
    (hne : j ≠ i ∨ q ≠ p) :
    PCellSet (preservedStep j aiData df q) i p s := by
  unfold preservedStep
  cases hq : aiData.lookup q with
  | none => exact h
  | some v =>
    cases v with
    | none => exact h
    | some t =>
      by_cases hcols : q ∈ df.cols
      · rw [if_pos hcols]
        exact PCellSet_setCell df i p s j q (some t) h hne
      · rw [if_neg hcols]
        have hqp : q ≠ p := fun hx => hcols (hx ▸ h.2)
        exact PCellSet_setCell _ i p s j q (some t)
          (PCellSet_setColAll df i p s q (some []) h hqp) hne

theorem PCellSet_preservedFoldAux (i : Nat) (p s : List Char) (j : Nat) (hne : j ≠ i)
    (aiData : List (List Char × Cell)) :
    ∀ (l : List (List Char)) (df : DataFrame), PCellSet df i p s →
      PCellSet (l.foldl (preservedStep j aiData) df) i p s := by
  intro l
  induction l with
  | nil =>
    intro df h
    exact h
  | cons q t ih =>
    intro df h
    rw [List.foldl_cons]
    exact ih _ (PCellSet_preservedStep df i p s j aiData q h (Or.inl hne))

theorem PCellSet_processMatch (mappings : List (List Char × List Char))
    (st : DataFrame × List FieldChange) (i : Nat) (p s : List Char)
    (h : PCellSet st.1 i p s) (m : RMatch) (hne : m.comparison_index ≠ i) :
    PCellSet (processMatch mappings st m).1 i p s := by
  unfold processMatch preservedFold mappedFold
  exact PCellSet_preservedFoldAux i p s m.comparison_index hne m.ai_data
    ai_columns_to_preserve _
    (PCellSet_mappedFoldAux i p s m.comparison_index hne m.comparison_name
      m.ai_data mappings _ (PCellSet_nameStep st i p s h m.comparison_index hne m.ai_name))

theorem PCellSet_matchFold (mappings : List (List Char × List Char)) (i : Nat)
    (p s : List Char) :
    ∀ (ms : List RMatch) (st : DataFrame × List FieldChange),
      (∀ m ∈ ms, m.comparison_index ≠ i) → PCellSet st.1 i p s →
      PCellSet ((ms.foldl (processMatch mappings) st)).1 i p s := by
  intro ms
  induction ms with
  | nil =>
    intro st _ h
    exact h
  | cons m t ih =>
    intro st hnot h
    rw [List.foldl_cons]
    exact ih _ (fun m' hm' => hnot m' (List.mem_cons_of_mem m hm'))
      (PCellSet_processMatch mappings st i p s h m (hnot m (List.mem_cons_self m t)))

theorem preservedStep_sets (df : DataFrame) (i : Nat)
    (aiData : List (List Char × Cell)) (p s : List Char)
    (hq : aiData.lookup p = some (some s)) :
    PCellSet (preservedStep i aiData df p) i p s := by
  unfold preservedStep
  rw [hq]
  exact ⟨getCell_setCell_self _ i p (some s), cols_setCell_self _ i p (some s)⟩

theorem preservedFold_sets (st : DataFrame × List FieldChange) (i : Nat)
    (aiData : List (List Char × Cell)) (p s : List Char)
    (hp : p ∈ ai_columns_to_preserve) (hq : aiData.lookup p = some (some s)) :
    PCellSet (preservedFold i aiData st).1 i p s := by
  have hp' : p = "Please select one of the following *".toList ∨ p = transportNeedCol := by
    simpa [ai_columns_to_preserve] using hp
  simp only [preservedFold, ai_columns_to_preserve, List.foldl_cons, List.foldl_nil]
  rcases hp' with h | h
  · subst h
    exact PCellSet_preservedStep _ i _ s i aiData transportNeedCol
      (preservedStep_sets st.1 i aiData _ s hq) (Or.inr (by decide))
  · subst h
    exact preservedStep_sets _ i aiData _ s hq

theorem PCellSet_reconLoop (orig : DataFrame) (mappings : List (List Char × List Char))
    (matchList : List RMatch) (m : RMatch) (hm : m ∈ matchList)
    (hnd : (matchList.map RMatch.comparison_index).Nodup) (p s : List Char)
    (hp : p ∈ ai_columns_to_preserve) (hq : m.ai_data.lookup p = some (some s)) :
    PCellSet (reconLoop mappings matchList orig).1 m.comparison_index p s := by
  obtain ⟨l₁, l₂, rfl⟩ := List.append_of_mem hm
  unfold reconLoop
  rw [List.foldl_append, List.foldl_cons]
  have hset : PCellSet
      (processMatch mappings (List.foldl (processMatch mappings) (orig, []) l₁) m).1
      m.comparison_index p s := by
    unfold processMatch
    exact preservedFold_sets _ m.comparison_index m.ai_data p s hp hq
  have hnot : ∀ m' ∈ l₂, m'.comparison_index ≠ m.comparison_index := by
    intro m' hm' hx
    rw [List.map_append, List.map_cons] at hnd
    have h2 := (List.nodup_append.mp hnd).2.1
    rw [List.nodup_cons] at h2
    exact h2.1 (hx ▸ List.mem_map_of_mem RMatch.comparison_index hm')
  exact PCellSet_matchFold mappings m.comparison_index p s l₂ _ hnot hset

theorem preserved_in_final (orig : DataFrame) (mappings : List (List Char × List Char))
    (matchList : List RMatch) (m : RMatch) (hm : m ∈ matchList)
    (hnd : (matchList.map RMatch.comparison_index).Nodup) (p s : List Char)
    (hp : p ∈ ai_columns_to_preserve) (hq : m.ai_data.lookup p = some (some s)) :
    ∃ r ∈ (_create_traversa_dataset orig mappings matchList).1.rows,
      r.label = m.comparison_index ∧ getVal r p = some s := by
  have hset := PCellSet_reconLoop orig mappings matchList m hm hnd p s hp hq
  obtain ⟨r₀, hf⟩ : ∃ r₀, findRow (reconLoop mappings matchList orig).1
      m.comparison_index = some r₀ := by
    cases hf : findRow (reconLoop mappings matchList orig).1 m.comparison_index with
    | none =>
      exfalso
      have h1 := hset.1
      simp only [getCell] at h1
      rw [hf] at h1
      exact Option.noConfusion h1
    | some r₀ => exact ⟨r₀, rfl⟩
  have hlab : r₀.label = m.comparison_index := by simpa using List.find?_some hf
  have hval : getVal r₀ p = some s := by
    have h1 := hset.1
    simp only [getCell] at h1
    rw [hf] at h1
    exact h1
  have hkept : r₀ ∈ (keptFrame (reconLoop mappings matchList orig).1
      (matchList.map RMatch.comparison_index)).rows := by
    simp only [keptFrame]
    exact List.mem_filterMap.mpr
      ⟨m.comparison_index, List.mem_map_of_mem RMatch.comparison_index hm, hf⟩
  have hpt : p ≠ transportCategoryCol := by
    rcases (by simpa [ai_columns_to_preserve] using hp :
        p = "Please select one of the following *".toList ∨ p = transportNeedCol) with
      h | h <;> subst h <;> decide
  obtain ⟨r, hr, hlab2, hvals⟩ := finalizeTransport_mem_of _ r₀ hkept
  refine ⟨r, ?_, hlab2.trans hlab, ?_⟩
  · simp only [_create_traversa_dataset]
    exact hr
  · rw [hvals p hpt]
    exact hval

/-- C3 — Reconciliation records every change it makes: in the reconciled
roster, every cell of a row whose column is not one of the two
verbatim-preserved source columns and not the derived transportation
category either equals the corresponding cell of the original target roster
or is the `new_value` of a change-log entry for that row and field; no
change-log entry is for a preserved column (given that no mapping targets
one), and the preserved columns are copied into the matched row whenever
present and non-null in the match data. -/
theorem traversa_reconciliation_frame (orig : DataFrame)
    (mappings : List (List Char × List Char)) (matchList : List RMatch)
    (hnd : (orig.rows.map DataRow.label).Nodup)
    (hmn : (matchList.map RMatch.comparison_index).Nodup)
    (hdisj : ∀ p ∈ ai_columns_to_preserve, p ∉ mappings.map Prod.snd) :
    (∀ r ∈ (_create_traversa_dataset orig mappings matchList).1.rows,
      ∀ c, c ∉ ai_columns_to_preserve → c ≠ transportCategoryCol →
        getVal r c = getCell orig r.label c ∨
        ∃ e ∈ (_create_traversa_dataset orig mappings matchList).2,
          e.row_index = r.label ∧ e.field = c ∧ getVal r c = e.new_value) ∧
    (∀ e ∈ (_create_traversa_dataset orig mappings matchList).2,
      e.field ∉ ai_columns_to_preserve) ∧
    (∀ m ∈ matchList, ∀ p ∈ ai_columns_to_preserve, ∀ s : List Char,
      m.ai_data.lookup p = some (some s) →
      ∃ r ∈ (_create_traversa_dataset orig mappings matchList).1.rows,
        r.label = m.comparison_index ∧ getVal r p = some s) := by
  refine ⟨?_, ?_, ?_⟩
  · intro r hr c hcp hct
    simp only [_create_traversa_dataset] at hr
    obtain ⟨r₀, hr₀, hlab, hvals⟩ := mem_finalizeTransport _ r hr
    have hr₀' := mem_keptFrame _ _ r₀ hr₀
    have hinv := (FrameInv_reconLoop orig mappings matchList hnd).2 r₀ hr₀' c hcp
    rcases hinv with h | ⟨e, he, h1, h2, h3⟩
    · left
      rw [hvals c hct, hlab]
      exact h
    · right
      refine ⟨e, he, ?_, h2, ?_⟩
      · rw [hlab]
        exact h1
      · rw [hvals c hct]
        exact h3
  · intro e he hef
    have hch := ChangeFieldsOk_reconLoop orig mappings matchList e he
    rcases hch with h | h | h
    · have : e.field ∈ ai_columns_to_preserve → False := by
        intro hx
        rw [h] at hx
        rcases (by simpa [ai_columns_to_preserve] using hx :
            firstNameCol = "Please select one of the following *".toList ∨
            firstNameCol = transportNeedCol) with hy | hy <;> exact absurd hy (by decide)
      exact this hef
    · have : e.field ∈ ai_columns_to_preserve → False := by
        intro hx
        rw [h] at hx
        rcases (by simpa [ai_columns_to_preserve] using hx :
            lastNameCol = "Please select one of the following *".toList ∨
            lastNameCol = transportNeedCol) with hy | hy <;> exact absurd hy (by decide)
      exact this hef
    · exact hdisj e.field hef h
  · intro m hm p hp s hq
    exact preserved_in_final orig mappings matchList m hm hmn p s hp hq

/-- A concrete two-row comparison frame for exercising the reconciler. -/
def reconOrig : DataFrame :=
  ⟨[firstNameCol, lastNameCol, "Grade".toList],
   [⟨0, [(firstNameCol, some "Jon".toList), (lastNameCol, some "Smith".toList),
         ("Grade".toList, some "3".toList)]⟩,
    ⟨1, [(firstNameCol, some "Amy".toList), (lastNameCol, some "Lee".toList),
         ("Grade".toList, some "5".toList)]⟩]⟩

/-- A concrete field mapping: source `grade` updates target `Grade`. -/
def reconMappings : List (List Char × List Char) := [("grade".toList, "Grade".toList)]

/-- One concrete match carrying a grade update and one preserved column. -/
def reconMatches : List RMatch :=
  [⟨0, "John Smith".toList, "Jon Smith".toList,
    [("grade".toList, some "4".toList),
     ("Please select one of the following *".toList, some "Yes".toList)]⟩]

/-- Witness for C3: the reconciliation frame theorem applied to a concrete
roster, mapping and match list, all hypotheses discharged by evaluation. -/
theorem traversa_reconciliation_frame_witness :
    ((reconOrig.rows.map DataRow.label).Nodup ∧
     (reconMatches.map RMatch.comparison_index).Nodup ∧
     (∀ p ∈ ai_columns_to_preserve, p ∉ reconMappings.map Prod.snd)) ∧
    ((∀ r ∈ (_create_traversa_dataset reconOrig reconMappings reconMatches).1.rows,
      ∀ c, c ∉ ai_columns_to_preserve → c ≠ transportCategoryCol →
        getVal r c = getCell reconOrig r.label c ∨
        ∃ e ∈ (_create_traversa_dataset reconOrig reconMappings reconMatches).2,
          e.row_index = r.label ∧ e.field = c ∧ getVal r c = e.new_value) ∧
     (∀ e ∈ (_create_traversa_dataset reconOrig reconMappings reconMatches).2,
       e.field ∉ ai_columns_to_preserve) ∧
     (∀ m ∈ reconMatches, ∀ p ∈ ai_columns_to_preserve, ∀ s : List Char,
       m.ai_data.lookup p = some (some s) →
       ∃ r ∈ (_create_traversa_dataset reconOrig reconMappings reconMatches).1.rows,
         r.label = m.comparison_index ∧ getVal r p = some s)) :=
  ⟨⟨by decide, by decide, by decide⟩,
   traversa_reconciliation_frame reconOrig reconMappings reconMatches
     (by decide) (by decide) (by decide)⟩

end VoigtsApp
